import Mathlib

/-!
# Verification of the drone-svd register-binding generator

A shallow embedding of the semantic core of the `drone-svd` crate
(CMSIS-SVD parser and register-binding generator for Drone OS), together
with theorems settling a list of claims about it.

Source files embedded (paths relative to the crate root):
* `src/device/access.rs`, `src/device/field.rs`, `src/device/register.rs`,
  `src/device/peripheral.rs`, `src/device/mod.rs` — the tree data model;
* `src/lib.rs` — the `DimGroup` dimension expander and `parse_int`;
* `src/traverse.rs` — register-tree traversal and the cluster-dimension
  combinator;
* `src/variant.rs` — the variant tracer and collector;
* `src/generator.rs`, `src/register.rs` — the emission pass (striping,
  `dim_name`).

Modelling conventions:
* `u32` is modelled as `Nat`; where wrap-around could matter sums are
  reduced by `u32` (`% 2 ^ 32`).
* `IndexMap<String, T>` is modelled as an insertion-ordered association
  list `List (String × T)`; `get` returns the first entry with the key,
  `get_mut`-style updates rewrite the first entry with the key.
* Rust panics (`unwrap`, `expect`, `unwrap_register_mut` on the wrong
  variant) and `Err` returns are both modelled as `Except.error` with a
  message echoing the source; `Option`-returning accessors that `expect`
  are modelled as `Option` with `none` standing for the panic.
* Loops whose termination is not structural carry an explicit fuel
  argument; wrappers supply fuel computed from the tree size, which is
  always sufficient (each step of the loop consumes at least one unit of
  the corresponding measure).
* Callback-style iterators (`impl FnMut(...) -> Result<()>`) are modelled
  by materializing the sequence of callback invocations as a list.
-/

namespace DroneSvd

/-- `Access` from `src/device/access.rs` (identical in `src/lib.rs`). -/
inductive Access where
  | writeOnly
  | readOnly
  | readWrite
  | readWriteonce
deriving DecidableEq, Repr

/-- `Field` from `src/device/field.rs`.  `bit_range` stores the already
deserialized `RangeInclusive<u32>` as a `(start, end)` pair. -/
structure Field where
  dim : Option Nat := none
  dim_increment : Option Nat := none
  name : String := ""
  description : String := ""
  bit_offset : Option Nat := none
  bit_width : Option Nat := none
  lsb : Option Nat := none
  msb : Option Nat := none
  bit_range : Option (Nat × Nat) := none
  access : Option Access := none
  force_bits : Bool := false
deriving DecidableEq, Repr

/-- `Register` from `src/device/register.rs`. -/
structure Register where
  dim : Option Nat := none
  dim_increment : Option Nat := none
  name : String := ""
  description : String := ""
  alternate_register : Option String := none
  address_offset : Nat := 0
  size : Option Nat := none
  access : Option Access := none
  reset_value : Option Nat := none
  fields : List Field := []
  variants : List String := []
deriving DecidableEq, Repr

/-- The fields of `Cluster` from `src/device/register.rs`, parameterized by
the type of the nested register tree so that the recursive knot can be tied
in `RegisterTree`. -/
structure ClusterG (τ : Type) where
  dim : Option Nat := none
  dim_increment : Option Nat := none
  name : String := ""
  alternate_cluster : Option String := none
  description : String := ""
  address_offset : Nat := 0
  register : List (String × τ) := []
  variants : List String := []

/-- `RegisterTree` from `src/device/register.rs`. -/
inductive RegisterTree where
  | register : Register → RegisterTree
  | cluster : ClusterG RegisterTree → RegisterTree

/-- `Cluster` from `src/device/register.rs`. -/
abbrev Cluster := ClusterG RegisterTree

/-- `Interrupt` from `src/device/peripheral.rs`. -/
structure Interrupt where
  name : String := ""
  description : String := ""
  value : Nat := 0
deriving DecidableEq, Repr

/-- `Registers` from `src/device/peripheral.rs`: the register tree of a
peripheral, an insertion-ordered map from names to nodes. -/
structure Registers where
  tree : List (String × RegisterTree) := []

/-- `Peripheral` from `src/device/peripheral.rs`. -/
structure Peripheral where
  derived_from : Option String := none
  dim : Option Nat := none
  dim_increment : Option Nat := none
  name : String := ""
  description : Option String := none
  alternate_peripheral : Option String := none
  base_address : Nat := 0
  size : Option Nat := none
  reset_value : Option Nat := none
  access : Option Access := none
  interrupt : List Interrupt := []
  registers : Option Registers := none
  variants : List String := []

/-- `Peripherals` from `src/device/mod.rs`. -/
structure Peripherals where
  peripheral : List (String × Peripheral) := []

/-- `Device` from `src/device/mod.rs`. -/
structure Device where
  name : String := ""
  size : Option Nat := none
  reset_value : Option Nat := none
  access : Option Access := none
  peripherals : Peripherals := {}

/-- Reduction modulo `2 ^ 32`, the value set of Rust's `u32`. -/
def u32 (n : Nat) : Nat := n % 2 ^ 32

/-- `IndexMap::get`: the first entry with the given key. -/
def amGet (m : List (String × α)) (k : String) : Option α :=
  (m.find? (fun p => p.1 == k)).map Prod.snd

/-- `IndexMap::get_mut` followed by an in-place update: rewrite the value of
the first entry with the given key. -/
def amUpdate (m : List (String × α)) (k : String) (f : α → α) : List (String × α) :=
  match m with
  | [] => []
  | (k', v) :: rest => if k' == k then (k', f v) :: rest else (k', v) :: amUpdate rest k f

/-! ## Integer literal parsing (`parse_int`, `src/device/mod.rs`) -/

/-- `char::to_digit`: the value of `c` as a digit in the given radix. -/
def digitVal (radix : Nat) (c : Char) : Option Nat :=
  let v :=
    if '0' ≤ c ∧ c ≤ '9' then some (c.toNat - '0'.toNat)
    else if 'a' ≤ c ∧ c ≤ 'z' then some (c.toNat - 'a'.toNat + 10)
    else if 'A' ≤ c ∧ c ≤ 'Z' then some (c.toNat - 'A'.toNat + 10)
    else none
  v.filter (· < radix)

/-- `u32::from_str_radix`: an optional leading `+`, then a non-empty digit
string in the given radix; fails on an invalid digit or on overflow past
`u32::MAX` (both are `ParseIntError`s in the source). -/
def fromStrRadix (radix : Nat) (cs : List Char) : Option Nat :=
  let cs := match cs with
    | '+' :: rest => rest
    | cs => cs
  match cs with
  | [] => none
  | _ =>
    (cs.foldlM (fun acc c => (digitVal radix c).map (fun d => acc * radix + d)) 0).filter
      (· < 2 ^ 32)

/-- `parse_int` from `src/device/mod.rs` (identical in `src/lib.rs`):
radix detection by prefix (`0x`/`0X` hex, a leading `0` followed by more
characters octal, otherwise decimal), then `u32::from_str_radix` on the
remaining characters. -/
def parseInt (src : String) : Option Nat :=
  let cs := src.toList
  if cs.take 2 = ['0', 'x'] ∨ cs.take 2 = ['0', 'X'] then fromStrRadix 16 (cs.drop 2)
  else if cs.take 1 = ['0'] ∧ cs.length > 1 then fromStrRadix 8 (cs.drop 1)
  else fromStrRadix 10 cs

/-! ## Field bit-range (`src/device/field.rs`) -/

/-- `split_once(':')`: split at the first `:`. -/
def splitOnceColon : List Char → Option (List Char × List Char)
  | [] => none
  | c :: cs =>
    if c = ':' then some ([], cs)
    else (splitOnceColon cs).map (fun p => (c :: p.1, p.2))

/-- `deserialize_bit_range` from `src/device/field.rs`: a string of the
form `[<msb>:<lsb>]`, parsed into the `RangeInclusive` `lsb ..= msb`,
modelled as the pair `(lsb, msb)`. -/
def deserializeBitRange (s : String) : Option (Nat × Nat) :=
  match s.toList with
  | '[' :: rest =>
    match rest.reverse with
    | ']' :: mid => do
      let (msbStr, lsbStr) ← splitOnceColon mid.reverse
      let lsbVal ← parseInt (String.mk lsbStr)
      let msbVal ← parseInt (String.mk msbStr)
      some (lsbVal, msbVal)
    | _ => none
  | _ => none

/-- `Field::bit_offset` from `src/device/field.rs`; `none` models the
`expect("bit-range is missing")` panic. -/
def Field.bitOffset (f : Field) : Option Nat :=
  f.bit_offset <|> f.lsb <|> f.bit_range.map Prod.fst

/-- `Field::bit_width` from `src/device/field.rs`; `none` models the
`expect("bit-range is missing")` panic. -/
def Field.bitWidth (f : Field) : Option Nat :=
  f.bit_width <|> (f.lsb.bind fun lsb => f.msb.map fun msb => msb - lsb + 1) <|>
    f.bit_range.map (fun r => r.2 - r.1 + 1)

/-! ## Register attribute resolution (`src/device/register.rs`) -/

/-- `Peripheral::derived_from` from `src/device/peripheral.rs`: resolve the
optional `derived_from` name against the device's peripheral map. -/
def Peripheral.derivedFrom (p : Peripheral) (device : Device) : Except String (Option Peripheral) :=
  match p.derived_from with
  | none => .ok none
  | some n =>
    match amGet device.peripherals.peripheral n with
    | some parent => .ok (some parent)
    | none => .error "peripheral referenced in `derivedFrom` not found"

/-- `Register::size` from `src/device/register.rs`: the fallback chain
register → peripheral → `derived_from` parent → device, failing with the
missing-attribute error when the whole chain is empty. -/
def Register.resolvedSize (r : Register) (device : Device) (peripheral : Peripheral)
    (parent : Option Peripheral) : Except String Nat :=
  match r.size <|> peripheral.size <|> (parent.bind fun p => p.size) <|> device.size with
  | some v => .ok v
  | none => .error "missing register size"

/-- `Register::reset_value` from `src/device/register.rs`: the same fallback
chain as `Register::size`. -/
def Register.resolvedResetValue (r : Register) (device : Device) (peripheral : Peripheral)
    (parent : Option Peripheral) : Except String Nat :=
  match r.reset_value <|> peripheral.reset_value <|> (parent.bind fun p => p.reset_value) <|>
      device.reset_value with
  | some v => .ok v
  | none => .error "missing reset value"

/-- The closure of the `try_fold` in `Register::access`: with no previous
access the field's own access is taken, otherwise the field's access
filtered for agreement with the previous one; `.map(Some)` turns the inner
`Option` into the `try_fold` control value, so a missing access or a
disagreement aborts the whole fold. -/
def accessStep (prev : Option Access) (field : Field) : Option (Option Access) :=
  (match prev with
    | none => field.access
    | some p => field.access.filter (fun a => a == p)).map some

/-- The field-access unification of `Register::access`: Rust's `try_fold`
over the `Option` monad, starting from `None`. -/
def fieldsAccessFold (fields : List Field) : Option (Option Access) :=
  fields.foldlM accessStep none

/-- `Register::access` from `src/device/register.rs`: the fallback chain
register → peripheral → `derived_from` parent → device, then unification of
the fields' access values. -/
def Register.resolvedAccess (r : Register) (device : Device) (peripheral : Peripheral)
    (parent : Option Peripheral) : Option Access :=
  r.access <|> peripheral.access <|> (parent.bind fun p => p.access) <|> device.access <|>
    (fieldsAccessFold r.fields).join

/-! ## Dimension expansion (`DimGroup::dim_group`, `src/lib.rs`) -/

/-- Core of Rust's `str::replace`: replace every non-overlapping occurrence
of `pat` left to right.  The fuel argument, instantiated with the length of
the string plus one, makes the recursion structural; every step consumes at
least one character, so the fuel never runs out. -/
def replaceCore (pat rep : List Char) : Nat → List Char → List Char
  | 0, s => s
  | _ + 1, [] => []
  | fuel + 1, c :: cs =>
    if pat.isPrefixOf (c :: cs) ∧ pat ≠ [] then
      rep ++ replaceCore pat rep fuel (List.drop pat.length (c :: cs))
    else c :: replaceCore pat rep fuel cs

/-- Rust's `str::replace(pat, rep)`. -/
def strReplace (s pat rep : String) : String :=
  String.mk (replaceCore pat.toList rep.toList (s.toList.length + 1) s.toList)

/-- Rust's `str::split(',')`: the comma-separated pieces of a string (an
empty string yields one empty piece, like the source). -/
def splitComma : List Char → List (List Char)
  | [] => [[]]
  | c :: cs =>
    if c = ',' then [] :: splitComma cs
    else
      match splitComma cs with
      | [] => [[c]]
      | p :: ps => (c :: p) :: ps

/-- The placeholder substitution of `DimGroup::dim_group`:
`name.replace("[%s]", "_<idx>").replace("%s", idx)`. -/
def dimGroupName (name idx : String) : String :=
  strReplace (strReplace name "[%s]" ("_" ++ idx)) "%s" idx

/-- `DimGroup::dim_group` from `src/lib.rs`, as a function of the three
trait accessors: `dim()` (the `(count, step)` pair, `None` when either
`dim` or `dim_increment` is missing), `dim_index()`, and `name()`.  Yields
the list of `(instance name, address delta)` pairs. -/
def dimGroup (dim : Option (Nat × Nat)) (dimIndex : Option String) (name : String) :
    List (String × Nat) :=
  match dim with
  | some (count, step) =>
    if count > 1 then
      let indices :=
        match dimIndex with
        | some idx => (splitComma idx.toList).map String.mk
        | none => (List.range count).map (fun i => Nat.repr i)
      indices.enum.map (fun p => (dimGroupName name p.2, p.1 * step))
    else [(name, 0)]
  | none => [(name, 0)]

/-! ## Variant-expansion naming (`dim_name`, `src/generator.rs` lines
443-449; the copy in `src/register.rs` lines 327-333 is identical) -/

/-- `str::strip_suffix`: the string with `suf` removed from its end, when
it ends with `suf`. -/
def stripSuffix (s suf : String) : Option String :=
  if suf.toList.isSuffixOf s.toList then
    some (String.mk (s.toList.take (s.toList.length - suf.toList.length)))
  else none

/-- `dim_name` from `src/generator.rs` / `src/register.rs`: substitute the
index only when the name ends with the literal suffix `[%s]`; otherwise
return the name unchanged. -/
def dimName (number : Nat) (name : String) : String :=
  match stripSuffix name "[%s]" with
  | some pre => pre ++ "_" ++ Nat.repr number
  | none => name

/-! ## Output striping (`Generator::generate_regs`, `src/generator.rs`
lines 66-95; `generate_registers`, `src/register.rs` lines 20-40) -/

/-- The `stagger` closure of `generate_regs` applied along one peripheral's
sequence of emission checkpoints: the counter is incremented once per
checkpoint, and the checkpoint's unit is written exactly when
`counter % pool_size == pool_number - 1`.  The unit type `α` stands for the
grouped instance record passed to `generate_variants`. -/
def emitStripeGo (poolNumber poolSize : Nat) (counter : Nat) : List α → List α
  | [] => []
  | u :: us =>
    if (counter + 1) % poolSize ≠ poolNumber - 1 then
      emitStripeGo poolNumber poolSize (counter + 1) us
    else u :: emitStripeGo poolNumber poolSize (counter + 1) us

/-- The striping skeleton of `generate_regs`: `peripheralUnits` is the
per-peripheral sequence of emission checkpoints produced by traversal,
variant collection, dimension expansion and the `generated` deduplication
set — all of which are deterministic and read none of the pool parameters,
so the same `peripheralUnits` is fed to every worker of one run.  The
`stagger` closure captures its counter by value and is `Copy`, so each
peripheral receives a fresh copy with the counter restarted at zero. -/
def generateRegsStripe (poolNumber poolSize : Nat) (peripheralUnits : List (List α)) : List α :=
  (peripheralUnits.map (emitStripeGo poolNumber poolSize 0)).flatten

/-! ## Tree traversal (`src/traverse.rs`) -/

mutual

/-- Size of a register-tree node, used to bound the traversal fuel. -/
def treeSize : RegisterTree → Nat
  | .register _ => 1
  | .cluster c => 1 + pairsSize c.register

/-- Size of a keyed register tree. -/
def pairsSize : List (String × RegisterTree) → Nat
  | [] => 0
  | (_, t) :: ts => 1 + treeSize t + pairsSize ts

end

/-- Size of a list of register-tree nodes. -/
def nodesSize : List RegisterTree → Nat
  | [] => 0
  | t :: ts => 1 + treeSize t + nodesSize ts

/-- A frame of the traversal work stack: the cluster path so far and the
nodes of the subtree that remain to be visited. -/
abbrev Frame := List Cluster × List RegisterTree

/-- Fuel bound for a traversal stack: one unit per frame plus the sizes of
the frames' trees. -/
def stackFuel : List Frame → Nat
  | [] => 0
  | (_, nodes) :: rest => 1 + nodesSize nodes + stackFuel rest

/-- The identity key tracked by `traverse_registers`: the ordered ancestor
cluster names and the register name. -/
def yieldKey (path : List Cluster) (r : Register) : List String × String :=
  (path.map ClusterG.name, r.name)

/-- The loop of `traverse_registers` from `src/traverse.rs`.  The stack is
kept top-first (`Vec::pop` takes the last element); visiting a cluster
pushes its subtree so that it is processed after the current frame's
remaining nodes but before the frames below, which is exactly the
`paths.push` / `paths.pop` discipline of the source.  A register is yielded
only when its key is not yet in `visited`.  Fuel decreases by one per step
and `stackFuel` over-approximates the number of steps. -/
def traverseGo (fuel : Nat) (visited : List (List String × String)) (stack : List Frame) :
    List (List Cluster × Register) :=
  match fuel with
  | 0 => []
  | fuel + 1 =>
    match stack with
    | [] => []
    | (_, []) :: rest => traverseGo fuel visited rest
    | (path, t :: ts) :: rest =>
      match t with
      | .register r =>
        if yieldKey path r ∈ visited then traverseGo fuel visited ((path, ts) :: rest)
        else (path, r) :: traverseGo fuel (yieldKey path r :: visited) ((path, ts) :: rest)
      | .cluster c =>
        traverseGo fuel visited
          ((path, ts) :: (path ++ [c], c.register.map Prod.snd) :: rest)

/-- `traverse_registers` from `src/traverse.rs`, with the callback
materialized as the returned list of `(cluster path, register)` pairs. -/
def traverseRegisters (paths : List Frame) : List (List Cluster × Register) :=
  traverseGo (stackFuel paths) [] paths

/-- The register tree of a peripheral as a list of nodes (an absent
`registers` element contributes no nodes). -/
def Peripheral.treeNodes (p : Peripheral) : List RegisterTree :=
  match p.registers with
  | some regs => regs.tree.map Prod.snd
  | none => []

/-- `traverse_peripheral_registers` from `src/traverse.rs`: the parent
(`derived_from`) tree is pushed first and the peripheral's own tree second.
The stack is represented top-first (the head is the next frame popped), so
the own tree is the head and is walked first, shadowing the parent tree. -/
def traversePeripheralRegisters (peripheral : Peripheral) (parent : Option Peripheral) :
    List (List Cluster × Register) :=
  let paths :=
    match parent with
    | some par => [([], peripheral.treeNodes), ([], par.treeNodes)]
    | none => [([], peripheral.treeNodes)]
  traverseRegisters paths

/-! ## The cluster-dimension combinator
(`for_each_clusters_combination`, `src/traverse.rs` lines 49-81) -/

/-- `Variant` from `src/variant.rs`: one member of an address-equivalence
class. -/
structure Variant where
  peripheral : Peripheral
  clusters : List Cluster
  register : Register
  name : Option String := none

/-- `iter().max().unwrap_or(0)` over a list of `Nat`. -/
def listMax (l : List Nat) : Nat := l.foldl Nat.max 0

/-- The per-depth strides of `for_each_clusters_combination`: `matrix[j][i]`
is variant `i`'s cluster dim at depth `j` (0 when the variant has no
cluster at that depth), and `dim[j]` is the maximum of row `j`. -/
def combinatorDims (variants : List Variant) : List Nat :=
  let maxLen := listMax (variants.map (fun v => v.clusters.length))
  (List.range maxLen).map (fun j =>
    listMax (variants.map (fun v =>
      match v.clusters[j]? with
      | some c => c.dim.getD 1
      | none => 0)))

/-- One variant's walk down its clusters for counter `k`: at each depth the
counter is decomposed by `mod`/`div` with that depth's stride, and the walk
aborts (`continue 'outer` in the source) when the decomposed index reaches
the variant's own cluster dim. -/
def variantFold (f : T → Cluster → Nat → T) : T → List Cluster → List Nat → Nat → Option T
  | acc, [], _, _ => some acc
  | acc, _ :: _, [], _ => some acc
  | acc, c :: cs, d :: ds, k =>
    if c.dim.getD 1 ≤ k % d then none
    else variantFold f (f acc c (k % d)) cs ds (k / d)

/-- `for_each_clusters_combination` from `src/traverse.rs`, with the
callbacks materialized: the result is the list of `combination` vectors
passed to `g`, one entry per surviving counter value; `f` folds a variant's
clusters with their decomposed indices.  `Option.mapM` reproduces the
`continue 'outer`: one out-of-range variant discards the whole counter. -/
def forEachClustersCombination (variants : List Variant) (init : T)
    (f : T → Cluster → Nat → T) : List (List T) :=
  let dims := combinatorDims variants
  (List.range dims.prod).filterMap (fun n =>
    variants.mapM (fun v => variantFold f init v.clusters dims n))

/-! ## The variant collector (`collect_variants`, `src/variant.rs`) -/

/-- The address-offset sum of a path: all ancestor cluster offsets plus the
register's own offset. -/
def pathOffsetSum (clusters : List Cluster) (register : Register) : Nat :=
  (clusters.map (fun c => c.address_offset)).sum + register.address_offset

/-- `is_paths_equal` from `src/variant.rs` lines 58-66: the `u32` sums of
the two paths' address offsets compared for equality.  Peripheral
`base_address` does not participate. -/
def isPathsEqual (clustersA : List Cluster) (registerA : Register) (clustersB : List Cluster)
    (registerB : Register) : Bool :=
  u32 (pathOffsetSum clustersA registerA) == u32 (pathOffsetSum clustersB registerB)

/-- `peripheral_get` from `src/variant.rs`: look a name up in the
peripheral's own tree, falling back to the `derived_from` parent's tree. -/
def peripheralGet (peripheral : Peripheral) (parent : Option Peripheral) (name : String) :
    Option RegisterTree :=
  (peripheral.registers.bind fun r => amGet r.tree name) <|>
    (parent.bind fun p => p.registers.bind fun r => amGet r.tree name)

/-- The register-level alias loop of `collect_variants` (`src/variant.rs`
lines 83-91): each name in the register's `variants` is resolved in the
innermost ancestor cluster's tree (or the peripheral's tree with parent
fallback when the path has no clusters) and paired with the unchanged
cluster path.  A missing entry models the `unwrap` panic and a cluster
entry models the `unwrap_register_ref` panic. -/
def registerAliasVariants (peripheral : Peripheral) (parent : Option Peripheral)
    (clusters : List Cluster) (register : Register) : Except String (List Variant) :=
  register.variants.mapM (fun oname =>
    let onode :=
      match clusters.getLast? with
      | some cluster => amGet cluster.register oname
      | none => peripheralGet peripheral parent oname
    match onode with
    | none => .error "register variant not found"
    | some (.cluster _) =>
      .error "called `RegisterTree::unwrap_register_ref()` on a Cluster value"
    | some (.register oregister) =>
      .ok { peripheral := peripheral, clusters := clusters, register := oregister })

/-- The cluster-level alias loop of `collect_variants` (`src/variant.rs`
lines 93-117), innermost ancestor first: each alias of the ancestor cluster
at depth `i` is resolved in its enclosing scope, the alias's subtree is
traversed, and every `(descendant clusters, register)` pair whose
offset sum equals that of the original path from depth `i` on is combined
with the unchanged ancestors above depth `i`. -/
def clusterAliasVariants (peripheral : Peripheral) (parent : Option Peripheral)
    (clusters : List Cluster) (register : Register) : Except String (List Variant) := do
  let parts ← ((List.range clusters.length).reverse).mapM (fun i => do
    match clusters.get? i with
    | none => .error "cluster index out of bounds"
    | some cluster =>
      let ancestorClusters := clusters.take i
      let descendantClusters := clusters.drop i
      let sub ← cluster.variants.mapM (fun oname => do
        let onode :=
          if 0 < i then (clusters.get? (i - 1)).bind (fun pc => amGet pc.register oname)
          else peripheralGet peripheral parent oname
        match onode with
        | none => .error "cluster variant not found"
        | some (.register _) =>
          .error "called `RegisterTree::unwrap_cluster_ref()` on a Register value"
        | some (.cluster ocluster) =>
          .ok (((traverseRegisters [([], ocluster.register.map Prod.snd)]).filter
              (fun y => isPathsEqual y.1 y.2 descendantClusters register)).map
            (fun y =>
              { peripheral := peripheral, clusters := ancestorClusters ++ y.1,
                register := y.2 })))
      .ok sub.flatten)
  .ok parts.flatten

/-- One iteration of the peripheral-level alias loop of `collect_variants`
(`src/variant.rs` lines 119-128): the alias name is looked up in the
device's peripheral map (a missing entry models the `unwrap` panic), its
own `derived_from` parent is resolved, and its whole tree is traversed
keeping every pair whose offset sum equals the original path's sum.  Only
`is_paths_equal` decides membership; base addresses are not read. -/
def peripheralAliasOne (device : Device) (clusters : List Cluster) (register : Register)
    (oname : String) : Except String (List Variant) :=
  match amGet device.peripherals.peripheral oname with
  | none => .error "peripheral variant not found"
  | some operipheral =>
    (operipheral.derivedFrom device).bind fun oparent =>
      .ok (((traversePeripheralRegisters operipheral oparent).filter
          (fun y => isPathsEqual y.1 y.2 clusters register)).map
        (fun y => { peripheral := operipheral, clusters := y.1, register := y.2 }))

/-- The peripheral-level alias loop of `collect_variants`: one pass of
`peripheralAliasOne` per name in the peripheral's `variants` list. -/
def peripheralAliasVariants (device : Device) (peripheral : Peripheral)
    (clusters : List Cluster) (register : Register) : Except String (List Variant) :=
  (peripheral.variants.mapM (peripheralAliasOne device clusters register)).bind fun parts =>
    .ok parts.flatten

/-- `unique_names` from `src/variant.rs`: when every variant agrees on a
name component the whole column collapses to empty strings, otherwise the
actual names are kept. -/
def uniqueNames (names : List String) : List String :=
  match names with
  | [] => []
  | n0 :: _ => if names.all (fun n => n == n0) then names.map (fun _ => "") else names

/-- The name joining of `name_variants`: the non-empty components joined
with `_`. -/
def joinParts (parts : List String) : String :=
  match parts.filter (fun p => ¬(p == "")) with
  | [] => ""
  | p :: rest => rest.foldl (fun acc q => acc ++ "_" ++ q) p

/-- `name_variants` from `src/variant.rs`: with fewer than two variants
nothing is named; otherwise one name column per level (peripheral, each
cluster depth of the first variant's path, register) is collapsed by
`unique_names` and joined per variant.  Indexing `v.clusters[i]` in the
source panics when a variant's path is shorter than the first variant's;
that panic is modelled as an error. -/
def nameVariants (variants : List Variant) : Except String (List Variant) :=
  if variants.length < 2 then .ok variants
  else do
    let clustersLen := (variants.head?.map (fun v => v.clusters.length)).getD 0
    let clusterLevels ← (List.range clustersLen).mapM (fun i =>
      variants.mapM (fun v =>
        match v.clusters.get? i with
        | some c => Except.ok c.name
        | none => Except.error "cluster path shorter than the first variant's"))
    let names := uniqueNames (variants.map (fun v => v.peripheral.name)) ::
      (clusterLevels.map uniqueNames ++ [uniqueNames (variants.map (fun v => v.register.name))])
    let joined := (List.range variants.length).map (fun i =>
      joinParts (names.map (fun level => (level.get? i).getD "")))
    .ok ((variants.zip joined).map (fun p => { p.1 with name := some p.2 }))

/-- `collect_variants` from `src/variant.rs` lines 51-132: the input
location itself, then the register-level, cluster-level and
peripheral-level alias members, finally named by `name_variants`. -/
def collectVariants (device : Device) (peripheral : Peripheral) (parent : Option Peripheral)
    (clusters : List Cluster) (register : Register) : Except String (List Variant) := do
  let regPart ← registerAliasVariants peripheral parent clusters register
  let clusterPart ← clusterAliasVariants peripheral parent clusters register
  let periphPart ← peripheralAliasVariants device peripheral clusters register
  nameVariants
    ({ peripheral := peripheral, clusters := clusters, register := register } ::
      (regPart ++ clusterPart ++ periphPart))

/-! ## The variant tracer (`trace_tree` and `trace_variants`,
`src/variant.rs`) -/

/-- Push a name onto the `variants` list of the register entry `alt` of a
tree: `tree.get_mut(alt).ok_or(...)?.unwrap_register_mut().variants.push(key)`. -/
def pushRegisterVariant (tree : List (String × RegisterTree)) (alt key : String) :
    Except String (List (String × RegisterTree)) :=
  match amGet tree alt with
  | none => .error "register referenced in `alternateRegister` not found"
  | some (.cluster _) => .error "called `RegisterTree::unwrap_register_mut()` on a Cluster value"
  | some (.register r) =>
    .ok (amUpdate tree alt (fun _ => .register { r with variants := r.variants ++ [key] }))

/-- `cluster_variants` from `trace_tree`, read side: the `variants` list of
the cluster entry `alt`; a missing entry models `ok_or`/`unwrap` on `None`
and a register entry models the `unwrap_cluster_mut` panic. -/
def getClusterVariants (tree : List (String × RegisterTree)) (alt : String) :
    Except String (List String) :=
  match amGet tree alt with
  | none => .error "cluster referenced in `alternateCluster` not found"
  | some (.register _) => .error "called `RegisterTree::unwrap_cluster_mut()` on a Register value"
  | some (.cluster c) => .ok c.variants

/-- `cluster_variants` from `trace_tree`, write side: push `key` onto the
`variants` list of the cluster entry `alt`. -/
def pushClusterVariant (tree : List (String × RegisterTree)) (alt key : String) :
    Except String (List (String × RegisterTree)) :=
  match amGet tree alt with
  | none => .error "cluster referenced in `alternateCluster` not found"
  | some (.register _) => .error "called `RegisterTree::unwrap_cluster_mut()` on a Register value"
  | some (.cluster c) =>
    .ok (amUpdate tree alt (fun _ => .cluster { c with variants := c.variants ++ [key] }))

/-- `trace_tree` from `src/variant.rs` lines 172-209, iterating the cloned
key list of one tree level.  A register with `alternate_register = alt`
pushes its key onto `alt`'s variants (single back-reference).  A cluster
first has its own subtree traced recursively; then, if it declares
`alternate_cluster = alt`, its key is pushed onto the variants list of
every existing variant of `alt` and finally onto `alt`'s own variants.
Fuel decreases once per processed key and once per recursion into a
subtree; any fuel at least the total tree size plus the key count is
sufficient. -/
def traceTreeGo (fuel : Nat) (keys : List String) (tree : List (String × RegisterTree)) :
    Except String (List (String × RegisterTree)) :=
  match fuel with
  | 0 => .error "out of fuel"
  | fuel + 1 =>
    match keys with
    | [] => .ok tree
    | key :: keys =>
      match amGet tree key with
      | none => .error "traced key not found"
      | some (.register r) =>
        match r.alternate_register with
        | none => traceTreeGo fuel keys tree
        | some alt => do
          let tree ← pushRegisterVariant tree alt key
          traceTreeGo fuel keys tree
      | some (.cluster c) => do
        let sub ← traceTreeGo fuel (c.register.map Prod.fst) c.register
        let tree := amUpdate tree key (fun _ => .cluster { c with register := sub })
        match c.alternate_cluster with
        | none => traceTreeGo fuel keys tree
        | some alt => do
          let vs ← getClusterVariants tree alt
          let tree ← vs.foldlM (fun tr v => pushClusterVariant tr v key) tree
          let tree ← pushClusterVariant tree alt key
          traceTreeGo fuel keys tree

/-- Push a name onto the `variants` list of the peripheral entry `alt`:
`peripheral_variants(device, alt)` followed by `push`. -/
def pushPeripheralVariant (periphs : List (String × Peripheral)) (alt key : String) :
    Except String (List (String × Peripheral)) :=
  match amGet periphs alt with
  | none => .error "peripheral referenced in `alternatePeripheral` not found"
  | some p => .ok (amUpdate periphs alt (fun _ => { p with variants := p.variants ++ [key] }))

/-- The loop of `trace_variants` from `src/variant.rs` lines 23-49 over the
cloned peripheral key list.  An excluded peripheral is skipped entirely.
Otherwise the peripheral's register tree is traced with `trace_tree`, and
if it declares `alternate_peripheral = alt`, its key is pushed onto the
variants list of every existing variant of `alt` and finally onto `alt`'s
own variants — exactly the cluster-aliasing shape at peripheral
granularity. -/
def traceVariantsGo (fuel : Nat) (exclude : List String) :
    List String → List (String × Peripheral) → Except String (List (String × Peripheral))
  | [], periphs => .ok periphs
  | key :: keys, periphs =>
    if exclude.any (fun n => n == key) then traceVariantsGo fuel exclude keys periphs
    else
      match amGet periphs key with
      | none => .error "traced peripheral key not found"
      | some p => do
        let p ←
          match p.registers with
          | some regs => do
            let t ← traceTreeGo fuel (regs.tree.map Prod.fst) regs.tree
            pure { p with registers := some { tree := t } }
          | none => pure p
        let periphs := amUpdate periphs key (fun _ => p)
        match p.alternate_peripheral with
        | none => traceVariantsGo fuel exclude keys periphs
        | some alt => do
          let vs ←
            match amGet periphs alt with
            | some q => Except.ok q.variants
            | none => Except.error "peripheral referenced in `alternatePeripheral` not found"
          let periphs ← vs.foldlM (fun ps v => pushPeripheralVariant ps v key) periphs
          let periphs ← pushPeripheralVariant periphs alt key
          traceVariantsGo fuel exclude keys periphs

/-- `trace_variants` from `src/variant.rs`: trace every non-excluded
peripheral of the device in key order. -/
def traceVariants (fuel : Nat) (device : Device) (exclude : List String) :
    Except String Device := do
  let ps ← traceVariantsGo fuel exclude (device.peripherals.peripheral.map Prod.fst)
    device.peripherals.peripheral
  .ok { device with peripherals := { peripheral := ps } }

/-- The in-range predicate implicit in `for_each_clusters_combination`: a
variant survives counter `k` when at every depth the decomposed index is
below its own cluster dim. -/
def variantInRange : List Cluster → List Nat → Nat → Bool
  | [], _, _ => true
  | _ :: _, [], _ => true
  | c :: cs, d :: ds, k => k % d < c.dim.getD 1 && variantInRange cs ds (k / d)

/-- The total fold of a variant's clusters with their decomposed indices
(meaningful when the variant is in range). -/
def variantFoldT (f : T → Cluster → Nat → T) : T → List Cluster → List Nat → Nat → T
  | acc, [], _, _ => acc
  | acc, _ :: _, [], _ => acc
  | acc, c :: cs, d :: ds, k => variantFoldT f (f acc c (k % d)) cs ds (k / d)

/-! ## Concrete inputs used by counterexamples and witnesses -/

/-- A register `R` at offset 0, shared by several concrete scenarios. -/
def exReg : Register := { name := "R" }

/-- A bare peripheral for the combinator scenarios. -/
def exPeriph : Peripheral := { name := "P" }

/-- A cluster array of dim 1, first variant of the combinator scenario. -/
def c3ClusterOne : Cluster := { name := "C1", dim := some 1 }

/-- A cluster array of dim 2, second variant of the combinator scenario. -/
def c3ClusterTwo : Cluster := { name := "C2", dim := some 2 }

/-- Combinator scenario, variant with the dim-1 cluster. -/
def c3VariantOne : Variant :=
  { peripheral := exPeriph, clusters := [c3ClusterOne], register := exReg }

/-- Combinator scenario, variant with the dim-2 cluster. -/
def c3VariantTwo : Variant :=
  { peripheral := exPeriph, clusters := [c3ClusterTwo], register := exReg }

/-- Register `R1` of the inheritance-shadowing parent peripheral `A`. -/
def shadowAR1 : Register := { name := "R1", description := "A's R1" }

/-- Register `R1` of the derived peripheral `B`, at a different offset. -/
def shadowBR1 : Register := { name := "R1", description := "B's R1", address_offset := 4 }

/-- Parent peripheral `A` of the inheritance-shadowing scenario. -/
def shadowA : Peripheral :=
  { name := "A", registers := some { tree := [("R1", .register shadowAR1)] } }

/-- Derived peripheral `B` (`derived_from = A`) defining its own `R1`. -/
def shadowB : Peripheral :=
  { name := "B", derived_from := some "A",
    registers := some { tree := [("R1", .register shadowBR1)] } }

/-- Alias-tracing scenario: cluster `X` declares `alternate_cluster = Y`. -/
def c1Tree : List (String × RegisterTree) :=
  [("X", .cluster { name := "X", alternate_cluster := some "Y" }),
   ("Y", .cluster { name := "Y" })]

/-- Alias-tracing scenario with a third cluster `Z` also aliasing `Y`
after `X`. -/
def c1TreeZ : List (String × RegisterTree) :=
  [("X", .cluster { name := "X", alternate_cluster := some "Y" }),
   ("Y", .cluster { name := "Y" }),
   ("Z", .cluster { name := "Z", alternate_cluster := some "Y" })]

/-- The variants list of the cluster entry `n`, or `[]` when `n` is not a
cluster entry — a read-only probe used to state concrete tracing facts. -/
def clusterVariantsAt (tree : List (String × RegisterTree)) (n : String) : List String :=
  match amGet tree n with
  | some (.cluster c) => c.variants
  | _ => []

/-- Cross-peripheral scenario: peripheral `P` at base `0x100` whose traced
`variants` list names `Q`. -/
def c2PeriphP : Peripheral :=
  { name := "P", base_address := 0x100, variants := ["Q"],
    registers := some { tree := [("R", .register exReg)] } }

/-- Cross-peripheral scenario: peripheral `Q` at a different base `0x200`
with a register `R` at the same offset sum. -/
def c2PeriphQ : Peripheral :=
  { name := "Q", base_address := 0x200,
    registers := some { tree := [("R", .register exReg)] } }

/-- Cross-peripheral scenario device holding `P` and `Q`. -/
def c2Device : Device :=
  { name := "D", peripherals := { peripheral := [("P", c2PeriphP), ("Q", c2PeriphQ)] } }

/-- Preservation invariant of the tracing pass at one tree level: every
cluster entry keeps its name, its kind, its `alternate_cluster`, and its
accumulated variants (new ones may be appended). -/
def TreePres (t t' : List (String × RegisterTree)) : Prop :=
  ∀ N c, amGet t N = some (.cluster c) →
    ∃ c', amGet t' N = some (.cluster c') ∧
      c'.alternate_cluster = c.alternate_cluster ∧
      ∀ v, v ∈ c.variants → v ∈ c'.variants

/-- Preservation invariant of `trace_variants` over the peripheral map:
every peripheral keeps its `alternate_peripheral` and its accumulated
variants. -/
def PeriphPres (t t' : List (String × Peripheral)) : Prop :=
  ∀ N p, amGet t N = some p →
    ∃ p', amGet t' N = some p' ∧
      p'.alternate_peripheral = p.alternate_peripheral ∧
      ∀ v, v ∈ p.variants → v ∈ p'.variants

/-- The tree obtained by tracing `c1TreeZ`: `X` and `Z` both land in `Y`'s
variants, `Z` lands in `X`'s variants, and `Z`'s own variants stay empty. -/
def c1OutZ : List (String × RegisterTree) :=
  [("X", .cluster { name := "X", alternate_cluster := some "Y", variants := ["Z"] }),
   ("Y", .cluster { name := "Y", variants := ["X", "Z"] }),
   ("Z", .cluster { name := "Z", alternate_cluster := some "Y" })]

/-- Peripheral-level alias scenario: `PA` and `PZ` both declare
`alternate_peripheral = PB`. -/
def c1Periphs : List (String × Peripheral) :=
  [("PA", { name := "PA", alternate_peripheral := some "PB" }),
   ("PB", { name := "PB" }),
   ("PZ", { name := "PZ", alternate_peripheral := some "PB" })]

/-- The peripheral map obtained by tracing `c1Periphs`: `PA` and `PZ` land
in `PB`'s variants, `PZ` lands in `PA`'s variants. -/
def c1POut : List (String × Peripheral) :=
  [("PA", { name := "PA", alternate_peripheral := some "PB", variants := ["PZ"] }),
   ("PB", { name := "PB", variants := ["PA", "PZ"] }),
   ("PZ", { name := "PZ", alternate_peripheral := some "PB" })]

/-! ## Theorems -/

theorem accessStep_none_eq (field : Field) : accessStep none field = field.access.map some := rfl

theorem accessStep_some_eq (p : Access) (field : Field) :
    accessStep (some p) field = if field.access = some p then some (some p) else none := by
  unfold accessStep
  cases h : field.access with
  | none => simp [Option.filter]
  | some a => by_cases hap : a = p <;> simp [Option.filter, hap]

theorem foldlM_access_from_some (fields : List Field) (a : Access) (x : Option Access) :
    fields.foldlM accessStep (some a) = some x ↔
      (x = some a ∧ ∀ f ∈ fields, f.access = some a) := by
  induction fields with
  | nil => simp [List.foldlM, eq_comm]
  | cons f fs ih =>
    rw [List.foldlM_cons, accessStep_some_eq]
    by_cases hf : f.access = some a
    · rw [if_pos hf]
      simp only [Option.bind_eq_bind, Option.some_bind]
      rw [ih]
      constructor
      · rintro ⟨hx, hall⟩
        exact ⟨hx, fun g hg => by
          rcases List.mem_cons.1 hg with rfl | hg'
          · exact hf
          · exact hall g hg'⟩
      · rintro ⟨hx, hall⟩
        exact ⟨hx, fun g hg => hall g (List.mem_cons_of_mem _ hg)⟩
    · rw [if_neg hf]
      simp only [Option.bind_eq_bind, Option.none_bind]
      constructor
      · intro h
        exact absurd h (by simp)
      · rintro ⟨-, hall⟩
        exact absurd (hall f (List.mem_cons_self _ _)) hf

/-- The unification step of `Register::access` succeeds with value `a`
exactly when the register has at least one field and every field agrees on
access `a`. -/
theorem fieldsAccessFold_join_eq (fields : List Field) (a : Access) :
    (fieldsAccessFold fields).join = some a ↔
      (fields ≠ [] ∧ ∀ f ∈ fields, f.access = some a) := by
  unfold fieldsAccessFold
  cases fields with
  | nil => simp [List.foldlM]
  | cons f fs =>
    rw [List.foldlM_cons, accessStep_none_eq]
    cases h : f.access with
    | none => simp [h]
    | some b =>
      simp only [Option.map_some', Option.bind_eq_bind, Option.some_bind]
      constructor
      · intro hj
        obtain ⟨y, hy⟩ : ∃ y, fs.foldlM accessStep (some b) = some y := by
          cases hfold : fs.foldlM accessStep (some b) with
          | none => rw [hfold] at hj; simp at hj
          | some y => exact ⟨y, rfl⟩
        have hy' : y = some a := by
          rw [hy] at hj
          simpa using hj
        obtain ⟨hba, hall⟩ := (foldlM_access_from_some fs b y).1 hy
        rw [hy'] at hba
        have hba' : a = b := by injection hba
        subst hba'
        refine ⟨by simp, fun g hg => ?_⟩
        rcases List.mem_cons.1 hg with rfl | hg'
        · exact h
        · exact hall g hg'
      · rintro ⟨-, hall⟩
        have hfa : b = a := by
          have hx := hall f (List.mem_cons_self _ _)
          rw [h] at hx; injection hx
        subst hfa
        have : fs.foldlM accessStep (some b) = some (some b) :=
          (foldlM_access_from_some fs b (some b)).2
            ⟨rfl, fun g hg => hall g (List.mem_cons_of_mem _ hg)⟩
        rw [this]
        rfl

/-- C8: when a register's `access` is unset at register, peripheral,
`derived_from`-parent and device level, the access inferred by field
unification is the unanimous field access when the register has at least
one field and every field carries that same access; with no fields, with
any field lacking an access, or with two fields disagreeing, the access
stays unresolved (`none`). -/
theorem c8_access_unification :
    ∀ (r : Register) (device : Device) (peripheral : Peripheral) (parent : Option Peripheral),
    r.access = none → peripheral.access = none → (parent.bind fun p => p.access) = none →
    device.access = none →
    (∀ a, r.fields ≠ [] → (∀ f ∈ r.fields, f.access = some a) →
      r.resolvedAccess device peripheral parent = some a)
    ∧ (r.fields = [] → r.resolvedAccess device peripheral parent = none)
    ∧ (∀ f, f ∈ r.fields → f.access = none → r.resolvedAccess device peripheral parent = none)
    ∧ (∀ f g a b, f ∈ r.fields → g ∈ r.fields → f.access = some a → g.access = some b → a ≠ b →
      r.resolvedAccess device peripheral parent = none) := by
  intro r device peripheral parent h1 h2 h3 h4
  have hchain : r.resolvedAccess device peripheral parent = (fieldsAccessFold r.fields).join := by
    simp [Register.resolvedAccess, h1, h2, h3, h4]
  refine ⟨fun a hne hall => ?_, fun hnil => ?_, fun f hf hfa => ?_, fun f g a b hf hg hfa hga hab => ?_⟩
  · rw [hchain]
    exact (fieldsAccessFold_join_eq r.fields a).2 ⟨hne, hall⟩
  · rw [hchain]
    cases hj : (fieldsAccessFold r.fields).join with
    | none => rfl
    | some a =>
      obtain ⟨hne, -⟩ := (fieldsAccessFold_join_eq r.fields a).1 hj
      exact absurd hnil hne
  · rw [hchain]
    cases hj : (fieldsAccessFold r.fields).join with
    | none => rfl
    | some a =>
      obtain ⟨-, hall⟩ := (fieldsAccessFold_join_eq r.fields a).1 hj
      have := hall f hf
      rw [hfa] at this
      exact absurd this (by simp)
  · rw [hchain]
    cases hj : (fieldsAccessFold r.fields).join with
    | none => rfl
    | some c =>
      obtain ⟨-, hall⟩ := (fieldsAccessFold_join_eq r.fields c).1 hj
      have ha : a = c := by have := hall f hf; rw [hfa] at this; injection this
      have hb : b = c := by have := hall g hg; rw [hga] at this; injection this
      exact absurd (ha.trans hb.symm) hab

/-- Witness for C8: a register whose two fields both carry `ReadOnly` and
no other access source resolves to `ReadOnly`. -/
theorem c8_access_unification_witness :
    ({ name := "R",
        fields := [{ name := "F0", access := some Access.readOnly },
          { name := "F1", access := some Access.readOnly }] } : Register).resolvedAccess
      { name := "D" } { name := "P" } none = some Access.readOnly :=
  (c8_access_unification
      { name := "R",
        fields := [{ name := "F0", access := some Access.readOnly },
          { name := "F1", access := some Access.readOnly }] }
      { name := "D" } { name := "P" } none rfl rfl rfl rfl).1
    Access.readOnly (by decide) (by decide)

/-- C9: a field's bit position may be given in exactly one of three
equivalent forms — explicit `bit_offset`+`bit_width`, `lsb`+`msb`
(width = msb − lsb + 1), or the string range `"[msb:lsb]"` — and all three
normalize to the same `(offset, width)` pair; in particular `{lsb:4, msb:7}`,
`{bit_range:"[7:4]"}` and `{bit_offset:4, bit_width:4}` all normalize to
offset 4, width 4; a field providing none of the three forms hits the
`expect("bit-range is missing")` panic, modelled by `none`. -/
theorem c9_bit_range_normalization :
    (deserializeBitRange "[7:4]" = some (4, 7))
    ∧ (({ lsb := some 4, msb := some 7 } : Field).bitOffset = some 4
        ∧ ({ lsb := some 4, msb := some 7 } : Field).bitWidth = some 4)
    ∧ (({ bit_range := deserializeBitRange "[7:4]" } : Field).bitOffset = some 4
        ∧ ({ bit_range := deserializeBitRange "[7:4]" } : Field).bitWidth = some 4)
    ∧ (({ bit_offset := some 4, bit_width := some 4 } : Field).bitOffset = some 4
        ∧ ({ bit_offset := some 4, bit_width := some 4 } : Field).bitWidth = some 4)
    ∧ (∀ o w : Nat, 1 ≤ w →
        (({ bit_offset := some o, bit_width := some w } : Field).bitOffset = some o
          ∧ ({ bit_offset := some o, bit_width := some w } : Field).bitWidth = some w)
        ∧ (({ lsb := some o, msb := some (o + w - 1) } : Field).bitOffset = some o
          ∧ ({ lsb := some o, msb := some (o + w - 1) } : Field).bitWidth = some w)
        ∧ (({ bit_range := some (o, o + w - 1) } : Field).bitOffset = some o
          ∧ ({ bit_range := some (o, o + w - 1) } : Field).bitWidth = some w))
    ∧ (∀ f : Field, f.bit_offset = none → f.bit_width = none → f.lsb = none → f.msb = none →
        f.bit_range = none → f.bitOffset = none ∧ f.bitWidth = none) := by
  refine ⟨by decide, ⟨by decide, by decide⟩, ⟨by decide, by decide⟩, ⟨by decide, by decide⟩,
    fun o w hw => ⟨⟨by simp [Field.bitOffset], by simp [Field.bitWidth]⟩,
      ⟨by simp [Field.bitOffset], ?_⟩, ⟨by simp [Field.bitOffset], ?_⟩⟩,
    fun f h1 h2 h3 h4 h5 =>
      ⟨by simp [Field.bitOffset, h1, h3, h5], by simp [Field.bitWidth, h2, h3, h5]⟩⟩
  · simp only [Field.bitWidth]
    simp
    omega
  · simp only [Field.bitWidth]
    simp
    omega

/-- Witness for C9: the three-form agreement applied at offset 2, width 5. -/
theorem c9_bit_range_normalization_witness :
    ({ lsb := some 2, msb := some (2 + 5 - 1) } : Field).bitWidth = some 5 :=
  (c9_bit_range_normalization.2.2.2.2.1 2 5 (by decide)).2.1.2

/-- C6: for every register, `size` is resolved by the fallback chain
register-level, else peripheral-level, else `derived_from` parent's level,
else device-level; if all four are absent resolution fails with the
missing-attribute error instead of defaulting; and the same chain and
failure apply to `reset_value`. -/
theorem c6_missing_attribute :
    ∀ (r : Register) (device : Device) (peripheral : Peripheral) (parent : Option Peripheral),
    (∀ v, r.size = some v → r.resolvedSize device peripheral parent = .ok v)
    ∧ (∀ v, r.size = none → peripheral.size = some v →
        r.resolvedSize device peripheral parent = .ok v)
    ∧ (∀ v pp, r.size = none → peripheral.size = none → parent = some pp → pp.size = some v →
        r.resolvedSize device peripheral parent = .ok v)
    ∧ (∀ v, r.size = none → peripheral.size = none → (parent.bind fun p => p.size) = none →
        device.size = some v → r.resolvedSize device peripheral parent = .ok v)
    ∧ (r.size = none → peripheral.size = none → (parent.bind fun p => p.size) = none →
        device.size = none →
        r.resolvedSize device peripheral parent = .error "missing register size")
    ∧ (∀ v, r.reset_value = some v → r.resolvedResetValue device peripheral parent = .ok v)
    ∧ (∀ v, r.reset_value = none → peripheral.reset_value = some v →
        r.resolvedResetValue device peripheral parent = .ok v)
    ∧ (∀ v pp, r.reset_value = none → peripheral.reset_value = none → parent = some pp →
        pp.reset_value = some v → r.resolvedResetValue device peripheral parent = .ok v)
    ∧ (∀ v, r.reset_value = none → peripheral.reset_value = none →
        (parent.bind fun p => p.reset_value) = none → device.reset_value = some v →
        r.resolvedResetValue device peripheral parent = .ok v)
    ∧ (r.reset_value = none → peripheral.reset_value = none →
        (parent.bind fun p => p.reset_value) = none → device.reset_value = none →
        r.resolvedResetValue device peripheral parent = .error "missing reset value") := by
  intro r device peripheral parent
  refine ⟨fun v h => by simp [Register.resolvedSize, h],
    fun v h1 h2 => by simp [Register.resolvedSize, h1, h2],
    fun v pp h1 h2 h3 h4 => by simp [Register.resolvedSize, h1, h2, h3, h4],
    fun v h1 h2 h3 h4 => by simp [Register.resolvedSize, h1, h2, h3, h4],
    fun h1 h2 h3 h4 => by simp [Register.resolvedSize, h1, h2, h3, h4],
    fun v h => by simp [Register.resolvedResetValue, h],
    fun v h1 h2 => by simp [Register.resolvedResetValue, h1, h2],
    fun v pp h1 h2 h3 h4 => by simp [Register.resolvedResetValue, h1, h2, h3, h4],
    fun v h1 h2 h3 h4 => by simp [Register.resolvedResetValue, h1, h2, h3, h4],
    fun h1 h2 h3 h4 => by simp [Register.resolvedResetValue, h1, h2, h3, h4]⟩

/-- Witness for C6: a register with no `size` anywhere in the chain fails
with the missing-attribute error. -/
theorem c6_missing_attribute_witness :
    ({ name := "R" } : Register).resolvedSize { name := "D" } { name := "P" } none =
      .error "missing register size" :=
  (c6_missing_attribute { name := "R" } { name := "D" } { name := "P" } none).2.2.2.2.1
    rfl rfl rfl rfl

/-- C7: dimension expansion yields `[(name, 0)]` with the placeholder
untouched when there is no array descriptor or `dim ≤ 1`; otherwise `dim`
pairs whose `i`-th label is `dim_index[i]` when explicit labels are given
(else the decimal string of `i`), whose name substitutes the label into the
`[%s]` or bare `%s` placeholder, and whose address delta is
`i × dim_increment` — the index position governs the stride, not the
label's value; in particular `dim = 3`, `dim_increment = 4`,
`name = "FOO[%s]"` yields `[("FOO_0",0),("FOO_1",4),("FOO_2",8)]`. -/
theorem c7_dimension_expansion :
    (∀ (dimIndex : Option String) (name : String), dimGroup none dimIndex name = [(name, 0)])
    ∧ (∀ (count step : Nat) (dimIndex : Option String) (name : String), count ≤ 1 →
        dimGroup (some (count, step)) dimIndex name = [(name, 0)])
    ∧ (∀ (count step : Nat) (name : String), 1 < count →
        dimGroup (some (count, step)) none name =
          (List.range count).map (fun i => (dimGroupName name (Nat.repr i), i * step)))
    ∧ (∀ (count step : Nat) (idx name : String), 1 < count →
        (∀ i, (dimGroup (some (count, step)) (some idx) name)[i]? =
          (((splitComma idx.toList).map String.mk)[i]?).map
            (fun l => (dimGroupName name l, i * step)))
        ∧ (((splitComma idx.toList).map String.mk).length = count →
            (dimGroup (some (count, step)) (some idx) name).length = count))
    ∧ dimGroup (some (3, 4)) none "FOO[%s]" = [("FOO_0", 0), ("FOO_1", 4), ("FOO_2", 8)]
    ∧ dimGroup (some (1, 4)) none "FOO[%s]" = [("FOO[%s]", 0)] := by
  refine ⟨fun _ _ => rfl, fun count step dimIndex name h => ?_,
    fun count step name h => ?_, fun count step idx name h => ⟨fun i => ?_, fun hlen => ?_⟩,
    by decide, by decide⟩
  · have hn : ¬ count > 1 := by omega
    simp [dimGroup, hn]
  · simp only [dimGroup]
    rw [if_pos h]
    apply List.ext_getElem?
    intro i
    by_cases hi : i < count
    · simp [List.getElem?_enum, List.getElem?_map, List.getElem?_range hi]
    · have h1 : (List.range count)[i]? = none :=
        List.getElem?_eq_none (by simpa using Nat.le_of_not_lt hi)
      simp [List.getElem?_enum, List.getElem?_map, h1]
  · simp only [dimGroup]
    rw [if_pos h]
    simp [List.getElem?_enum, List.getElem?_map]
    exact Option.map_congr fun a _ => rfl
  · simp only [dimGroup]
    rw [if_pos h]
    simpa using hlen

/-- Witness for C7: the general expansion formula applied at
`dim = 2, dim_increment = 8, name = "BAR[%s]"`. -/
theorem c7_dimension_expansion_witness :
    dimGroup (some (2, 8)) none "BAR[%s]" =
      (List.range 2).map (fun i => (dimGroupName "BAR[%s]" (Nat.repr i), i * 8)) :=
  c7_dimension_expansion.2.2.1 2 8 "BAR[%s]" (by decide)

theorem stripSuffix_append (pre suf : String) :
    stripSuffix (pre ++ suf) suf = some pre := by
  unfold stripSuffix
  have hsec : suf.toList.isSuffixOf (pre ++ suf).toList := by
    rw [List.isSuffixOf_iff_suffix]
    show suf.data <:+ (pre ++ suf).data
    rw [String.data_append]
    exact List.suffix_append _ _
  rw [if_pos hsec]
  congr 1
  show String.mk ((pre ++ suf).data.take ((pre ++ suf).data.length - suf.data.length)) = pre
  rw [String.data_append, List.length_append]
  have heq : pre.data.length + suf.data.length - suf.data.length = pre.data.length := by omega
  rw [heq, List.take_left]

theorem stripSuffix_none (s suf : String) (h : ¬ suf.toList.isSuffixOf s.toList) :
    stripSuffix s suf = none := by
  unfold stripSuffix
  rw [if_neg h]

/-- C10: the emission-path `dim_name` substitutes suffix-only: it returns
`<prefix>_<n>` when the name ends with the literal `[%s]`, and the name
completely unchanged in every other case — a bare `%s` or an interior
`[%s]` is never substituted, so every index of such a name produces the
identical emitted name. -/
theorem c10_dim_name_suffix_only :
    (∀ (pre : String) (n : Nat), dimName n (pre ++ "[%s]") = pre ++ "_" ++ Nat.repr n)
    ∧ (∀ (name : String) (n : Nat), ¬ ("[%s]".toList.isSuffixOf name.toList) →
        dimName n name = name)
    ∧ (∀ (name : String) (n m : Nat), ¬ ("[%s]".toList.isSuffixOf name.toList) →
        dimName n name = dimName m name)
    ∧ (∀ n : Nat, dimName n "FOO%s" = "FOO%s")
    ∧ (∀ n : Nat, dimName n "A[%s]B" = "A[%s]B") := by
  have h2 : ∀ (name : String) (n : Nat), ¬ ("[%s]".toList.isSuffixOf name.toList) →
      dimName n name = name := by
    intro name n h
    unfold dimName
    rw [stripSuffix_none name _ h]
  refine ⟨fun pre n => ?_, h2, fun name n m h => (h2 name n h).trans (h2 name m h).symm,
    fun n => h2 _ n (by decide), fun n => h2 _ n (by decide)⟩
  unfold dimName
  rw [stripSuffix_append]

/-- Witness for C10: `dim_name` at index 7 on a name with an interior
placeholder leaves the name unchanged. -/
theorem c10_dim_name_suffix_only_witness : dimName 7 "A[%s]B" = "A[%s]B" :=
  c10_dim_name_suffix_only.2.2.2.2 7

theorem emitStripeGo_nil (p N c : Nat) : emitStripeGo p N c ([] : List α) = [] := rfl

theorem emitStripeGo_cons (p N c : Nat) (u : α) (us : List α) :
    emitStripeGo p N c (u :: us) =
      (if (c + 1) % N = p - 1 then [u] else []) ++ emitStripeGo p N (c + 1) us := by
  by_cases h : (c + 1) % N = p - 1
  · simp [emitStripeGo, h]
  · simp [emitStripeGo, h]

theorem flatten_map_append_perm (l : List β) (A B : β → List α) :
    ((l.map fun k => A k ++ B k).flatten).Perm ((l.map A).flatten ++ (l.map B).flatten) := by
  induction l with
  | nil => simp
  | cons k ks ih =>
    simp only [List.map_cons, List.flatten_cons]
    refine (ih.append_left (A k ++ B k)).trans ?_
    rw [List.append_assoc (A k), List.append_assoc (A k)]
    exact (List.perm_append_comm_assoc (B k) _ _).append_left (A k)

theorem flatten_map_single (u : α) (M : Nat) :
    ∀ N, ((List.range N).map (fun k => if M = k then [u] else [])).flatten =
      if M < N then [u] else [] := by
  intro N
  induction N with
  | zero => simp
  | succ n ih =>
    rw [List.range_succ, List.map_append, List.flatten_append, ih]
    by_cases h2 : M = n
    · subst h2
      simp
    · by_cases h1 : M < n
      · have h3 : M < n + 1 := by omega
        simp [h1, h2, h3]
      · have h3 : ¬ M < n + 1 := by omega
        simp [h1, h2, h3]

/-- Striping one checkpoint sequence: the checkpoint at counter `c + 1` is
written by exactly one of the `N` workers, so the concatenation of all `N`
workers' outputs is a permutation of the sequence itself. -/
theorem stripe_union_perm (N : Nat) (hN : 1 ≤ N) (us : List α) :
    ∀ c, (((List.range N).map (fun k => emitStripeGo (k + 1) N c us)).flatten).Perm us := by
  induction us with
  | nil => intro c; simp [emitStripeGo_nil]
  | cons u tl ih =>
    intro c
    have hmap : (List.range N).map (fun k => emitStripeGo (k + 1) N c (u :: tl)) =
        (List.range N).map (fun k =>
          (if (c + 1) % N = k then [u] else []) ++ emitStripeGo (k + 1) N (c + 1) tl) :=
      List.map_congr_left fun k _ => by rw [emitStripeGo_cons]; simp
    rw [hmap]
    refine (flatten_map_append_perm _ _ _).trans ?_
    rw [flatten_map_single, if_pos (Nat.mod_lt _ (by omega))]
    exact (ih (c + 1)).cons u

theorem emitStripeGo_one_one (us : List α) : ∀ c, emitStripeGo 1 1 c us = us := by
  induction us with
  | nil => intro c; rfl
  | cons u tl ih =>
    intro c
    rw [emitStripeGo_cons]
    simp [Nat.mod_one, ih]

theorem generateRegsStripe_one_one (periphs : List (List α)) :
    generateRegsStripe 1 1 periphs = periphs.flatten := by
  unfold generateRegsStripe
  congr 1
  have h : List.map (emitStripeGo 1 1 0) periphs = List.map id periphs :=
    List.map_congr_left fun us _ => emitStripeGo_one_one us 0
  rw [h, List.map_id]

theorem generateRegsStripe_cons (p N : Nat) (us : List α) (rest : List (List α)) :
    generateRegsStripe p N (us :: rest) =
      emitStripeGo p N 0 us ++ generateRegsStripe p N rest := by
  simp [generateRegsStripe]

theorem pools_union_perm (N : Nat) (hN : 1 ≤ N) (periphs : List (List α)) :
    (((List.range N).map (fun k => generateRegsStripe (k + 1) N periphs)).flatten).Perm
      periphs.flatten := by
  induction periphs with
  | nil => simp [generateRegsStripe]
  | cons us rest ih =>
    have hmap : (List.range N).map (fun k => generateRegsStripe (k + 1) N (us :: rest)) =
        (List.range N).map (fun k =>
          emitStripeGo (k + 1) N 0 us ++ generateRegsStripe (k + 1) N rest) :=
      List.map_congr_left fun k _ => generateRegsStripe_cons _ _ _ _
    rw [hmap, List.flatten_cons]
    exact (flatten_map_append_perm _ _ _).trans ((stripe_union_perm N hN us 0).append ih)

/-- C4: striping is an exact partition — for every per-peripheral sequence
of emission checkpoints (which is determined by the device and exclusion
set alone, independent of the pool parameters) and every `pool_size N ≥ 1`,
the unstriped run (`pool_size = 1`) emits everything; the union of the
outputs of the runs with `pool_number ∈ {1..N}` is a permutation of the
unstriped output (each unit exactly once: no overlap, no gaps); and under
deduplication (distinct units) the `N` outputs are pairwise disjoint. -/
theorem c4_striping_partition :
    ∀ (α : Type) (peripheralUnits : List (List α)) (N : Nat), 1 ≤ N →
    (generateRegsStripe 1 1 peripheralUnits = peripheralUnits.flatten)
    ∧ (((List.range N).map (fun k => generateRegsStripe (k + 1) N peripheralUnits)).flatten).Perm
        (generateRegsStripe 1 1 peripheralUnits)
    ∧ (peripheralUnits.flatten.Nodup → ∀ i j, i < N → j < N → i ≠ j → ∀ u,
        u ∈ generateRegsStripe (i + 1) N peripheralUnits →
        u ∉ generateRegsStripe (j + 1) N peripheralUnits) := by
  intro α periphs N hN
  refine ⟨generateRegsStripe_one_one periphs, ?_, ?_⟩
  · rw [generateRegsStripe_one_one]
    exact pools_union_perm N hN periphs
  · intro hd i j hi hj hij u hu
    have hperm := pools_union_perm N hN periphs
    have hnd :
        (((List.range N).map (fun k => generateRegsStripe (k + 1) N periphs)).flatten).Nodup :=
      hperm.symm.nodup hd
    have hpair : ((List.range N).map (fun k => generateRegsStripe (k + 1) N periphs)).Pairwise
        List.Disjoint := (List.nodup_flatten.1 hnd).2
    have hpair' : (List.range N).Pairwise (fun a b =>
        List.Disjoint (generateRegsStripe (a + 1) N periphs)
          (generateRegsStripe (b + 1) N periphs)) := by
      rw [List.pairwise_map] at hpair
      exact hpair
    have hsymm : Symmetric (fun a b =>
        List.Disjoint (generateRegsStripe (a + 1) N periphs)
          (generateRegsStripe (b + 1) N periphs)) := fun a b h => h.symm
    exact hpair'.forall hsymm (List.mem_range.2 hi) (List.mem_range.2 hj) hij hu

/-- Witness for C4: the three-pool union over a two-peripheral checkpoint
sequence is a permutation of the unstriped output. -/
theorem c4_striping_partition_witness :
    (((List.range 3).map (fun k => generateRegsStripe (k + 1) 3 [[1, 2], [3]])).flatten).Perm
      (generateRegsStripe 1 1 [[1, 2], [3]]) :=
  (c4_striping_partition Nat [[1, 2], [3]] 3 (by decide)).2.1

theorem foldl_max_init (l : List Nat) :
    ∀ a, l.foldl Nat.max a = Nat.max a (l.foldl Nat.max 0) := by
  induction l with
  | nil => intro a; simp
  | cons x xs ih =>
    intro a
    rw [List.foldl_cons, ih (Nat.max a x), List.foldl_cons, ih (Nat.max 0 x)]
    simp [Nat.zero_max, Nat.max_assoc]

theorem listMax_cons (x : Nat) (l : List Nat) : listMax (x :: l) = Nat.max x (listMax l) := by
  unfold listMax
  rw [List.foldl_cons, foldl_max_init]
  simp [Nat.zero_max]

/-- Padding absent depths with 0 does not change the maximum: the stride of
a depth is the maximum dim among the variants that do have a cluster
there. -/
theorem listMax_pad (variants : List Variant) (j : Nat) :
    listMax (variants.map (fun v =>
      match v.clusters[j]? with
      | some c => c.dim.getD 1
      | none => 0)) =
    listMax ((variants.filterMap (fun v => v.clusters[j]?)).map (fun c => c.dim.getD 1)) := by
  induction variants with
  | nil => rfl
  | cons v rest ih =>
    cases h : v.clusters[j]? with
    | some c =>
      simp only [List.map_cons, List.filterMap_cons, h]
      rw [listMax_cons, listMax_cons, ih]
    | none =>
      simp only [List.map_cons, List.filterMap_cons, h]
      rw [listMax_cons, ih]
      simp [Nat.zero_max]

theorem variantFold_eq_ite (f : T → Cluster → Nat → T) :
    ∀ (cs : List Cluster) (ds : List Nat) (k : Nat) (acc : T),
    variantFold f acc cs ds k =
      if variantInRange cs ds k then some (variantFoldT f acc cs ds k) else none := by
  intro cs
  induction cs with
  | nil => intro ds k acc; simp [variantFold, variantInRange, variantFoldT]
  | cons c cs ih =>
    intro ds k acc
    cases ds with
    | nil => simp [variantFold, variantInRange, variantFoldT]
    | cons d ds =>
      simp only [variantFold, variantInRange, variantFoldT]
      by_cases h : k % d < c.dim.getD 1
      · rw [if_neg (by omega), ih]
        simp [h]
      · rw [if_pos (by omega)]
        simp [h]

/-- The `continue 'outer` semantics: the combination vector for counter `n`
exists exactly when every variant is in range at `n`. -/
theorem mapM_variantFold (f : T → Cluster → Nat → T) (init : T) (dims : List Nat) (n : Nat) :
    ∀ variants : List Variant,
    variants.mapM (fun v => variantFold f init v.clusters dims n) =
      if variants.all (fun v => variantInRange v.clusters dims n) then
        some (variants.map (fun v => variantFoldT f init v.clusters dims n))
      else none := by
  intro variants
  induction variants with
  | nil => rfl
  | cons v rest ih =>
    rw [List.mapM_cons, variantFold_eq_ite]
    by_cases h : variantInRange v.clusters dims n
    · simp only [if_pos h]
      simp only [Option.bind_eq_bind, Option.some_bind, ih]
      by_cases hall : rest.all (fun v => variantInRange v.clusters dims n)
      · simp [h, hall]
      · simp [h, hall]
    · simp [h]

theorem filterMap_ite (l : List Nat) (p : Nat → Bool) (g : Nat → α) :
    (l.filterMap fun n => if p n then some (g n) else none) = (l.filter p).map g := by
  induction l with
  | nil => rfl
  | cons x xs ih =>
    by_cases h : p x
    · simp [List.filterMap_cons, List.filter_cons, h, ih]
    · simp [List.filterMap_cons, List.filter_cons, h, ih]

theorem combinatorDims_getElem? (variants : List Variant) (j : Nat) :
    (combinatorDims variants)[j]? =
      if j < listMax (variants.map (fun v => v.clusters.length)) then
        some (listMax ((variants.filterMap (fun v => v.clusters[j]?)).map
          (fun c => c.dim.getD 1)))
      else none := by
  unfold combinatorDims
  by_cases hj : j < listMax (variants.map fun v => v.clusters.length)
  · rw [if_pos hj, List.getElem?_map, List.getElem?_range hj]
    simp only [Option.map_some']
    exact congrArg some (listMax_pad variants j)
  · rw [if_neg hj]
    apply List.getElem?_eq_none
    simpa using Nat.le_of_not_lt hj

/-- C3 (amended): in the cluster-dimension combinator the per-depth stride
is the maximum dim among all variants that have a cluster at that depth,
and the running counter is decomposed by repeated mod/div into per-depth
indices; but when any single variant's cluster dim at some depth is at most
the decomposed index for a counter value, the `continue 'outer` discards
that counter value entirely — no variant produces output for it; output
vectors exist exactly for the counter values at which every variant is in
range at every depth. -/
theorem c3_cluster_combinator_amended :
    ∀ (T : Type) (variants : List Variant) (init : T) (f : T → Cluster → Nat → T),
    (∀ j, (combinatorDims variants)[j]? =
        if j < listMax (variants.map (fun v => v.clusters.length)) then
          some (listMax ((variants.filterMap (fun v => v.clusters[j]?)).map
            (fun c => c.dim.getD 1)))
        else none)
    ∧ forEachClustersCombination variants init f =
        ((List.range (combinatorDims variants).prod).filter
            (fun n =>
              variants.all (fun v => variantInRange v.clusters (combinatorDims variants) n))).map
          (fun n =>
            variants.map (fun v => variantFoldT f init v.clusters (combinatorDims variants) n)) := by
  intro T variants init f
  refine ⟨combinatorDims_getElem? variants, ?_⟩
  unfold forEachClustersCombination
  rw [List.filterMap_congr (g := fun n =>
    if variants.all (fun v => variantInRange v.clusters (combinatorDims variants) n) then
      some (variants.map (fun v => variantFoldT f init v.clusters (combinatorDims variants) n))
    else none)
    (fun n _ => mapM_variantFold f init (combinatorDims variants) n variants)]
  exact filterMap_ite _ _ _

/-- Counterexample for C3: two variants whose clusters have dims 1 and 2.
The stride is 2, but for counter value 1 — where only the dim-1 variant is
out of range — the dim-2 variant produces no output either: the whole run
yields a single combination (for counter 0), and no combination containing
the dim-2 variant's index 1 ever appears, contradicting the claim that the
other variants still produce their output for that counter. -/
theorem c3_cluster_combinator_counterexample :
    combinatorDims [c3VariantOne, c3VariantTwo] = [2]
    ∧ forEachClustersCombination [c3VariantOne, c3VariantTwo] ([] : List Nat)
        (fun a _ n => a ++ [n]) = [[[0], [0]]]
    ∧ ((forEachClustersCombination [c3VariantOne, c3VariantTwo] ([] : List Nat)
        (fun a _ n => a ++ [n])).any (fun combo => combo.any (fun l => l == [1]))) = false :=
  ⟨rfl, rfl, rfl⟩

/-- Each key is yielded at most once by the traversal loop, and no yielded
key is already in the `visited` set — for every fuel, visited set and
stack. -/
theorem traverseGo_nodup :
    ∀ (fuel : Nat) (visited : List (List String × String)) (stack : List Frame),
    ((traverseGo fuel visited stack).map (fun y => yieldKey y.1 y.2)).Nodup
    ∧ ∀ y ∈ traverseGo fuel visited stack, yieldKey y.1 y.2 ∉ visited := by
  intro fuel
  induction fuel with
  | zero => intro visited stack; simp [traverseGo]
  | succ fuel ih =>
    intro visited stack
    match stack with
    | [] => simp [traverseGo]
    | (path, []) :: rest =>
      simpa only [traverseGo] using ih visited rest
    | (path, .register r :: ts) :: rest =>
      by_cases hv : yieldKey path r ∈ visited
      · simpa only [traverseGo, if_pos hv] using ih visited ((path, ts) :: rest)
      · simp only [traverseGo, if_neg hv]
        obtain ⟨hnd, hvis⟩ := ih (yieldKey path r :: visited) ((path, ts) :: rest)
        refine ⟨?_, ?_⟩
        · simp only [List.map_cons]
          refine List.Nodup.cons ?_ hnd
          intro hmem
          obtain ⟨y, hy, hkey⟩ := List.mem_map.1 hmem
          exact (hvis y hy) (hkey ▸ List.mem_cons_self _ _)
        · intro y hy
          rcases List.mem_cons.1 hy with rfl | hy'
          · exact hv
          · exact fun hmem => (hvis y hy') (List.mem_cons_of_mem _ hmem)
    | (path, .cluster c :: ts) :: rest =>
      simpa only [traverseGo] using
        ih visited ((path, ts) :: (path ++ [c], c.register.map Prod.snd) :: rest)

/-- C5: traversal with inheritance yields each identity key (ancestor
cluster names, register name) at most once, and walks the peripheral's own
tree before the `derived_from` parent's tree; for peripheral `B` with
`derived_from = A`, both defining register `R1` at the same name-path,
traversal yields `B`'s `R1` and never `A`'s. -/
theorem c5_traversal_shadowing :
    (∀ (fuel : Nat) (visited : List (List String × String)) (stack : List Frame),
      ((traverseGo fuel visited stack).map (fun y => yieldKey y.1 y.2)).Nodup
      ∧ ∀ y ∈ traverseGo fuel visited stack, yieldKey y.1 y.2 ∉ visited)
    ∧ traversePeripheralRegisters shadowB (some shadowA) = [([], shadowBR1)]
    ∧ ([], shadowAR1) ∉ traversePeripheralRegisters shadowB (some shadowA) := by
  refine ⟨traverseGo_nodup, rfl, ?_⟩
  rw [show traversePeripheralRegisters shadowB (some shadowA) = [([], shadowBR1)] from rfl]
  intro h
  simp only [List.mem_singleton, Prod.mk.injEq] at h
  have h2 : shadowAR1 = shadowBR1 := h.2
  simp [shadowAR1, shadowBR1] at h2

/-- Witness for C5: the at-most-once property applied to the concrete
shadowing scenario's own stack. -/
theorem c5_traversal_shadowing_witness :
    ((traverseGo (stackFuel [([], shadowB.treeNodes), ([], shadowA.treeNodes)]) []
        [([], shadowB.treeNodes), ([], shadowA.treeNodes)]).map
      (fun y => yieldKey y.1 y.2)).Nodup :=
  (c5_traversal_shadowing.1 _ [] [([], shadowB.treeNodes), ([], shadowA.treeNodes)]).1

theorem exceptOkBind {ε α β : Type} (x : α) (f : α → Except ε β) :
    (Except.ok x >>= f) = f x := rfl

theorem exceptErrorBind {ε α β : Type} (e : ε) (f : α → Except ε β) :
    ((Except.error e : Except ε α) >>= f) = Except.error e := rfl

theorem exceptPure {ε α : Type} (x : α) : (pure x : Except ε α) = Except.ok x := rfl

theorem mapM_except_ok_mem {α β : Type} (g : α → Except String (List β)) :
    ∀ (l : List α) (out : List (List β)), l.mapM g = .ok out →
    ∀ b, b ∈ out.flatten ↔ ∃ a ∈ l, ∃ part, g a = .ok part ∧ b ∈ part := by
  intro l
  induction l with
  | nil =>
    intro out hout b
    have : out = [] := by
      simp only [List.mapM_nil, exceptPure] at hout
      injection hout with h
      exact h.symm
    subst this
    simp
  | cons a l ih =>
    intro out hout b
    rw [List.mapM_cons] at hout
    cases hga : g a with
    | error e => rw [hga, exceptErrorBind] at hout; exact absurd hout (by simp)
    | ok part =>
      rw [hga, exceptOkBind] at hout
      cases hgl : l.mapM g with
      | error e => rw [hgl, exceptErrorBind] at hout; exact absurd hout (by simp)
      | ok rest =>
        rw [hgl, exceptOkBind, exceptPure] at hout
        injection hout with h
        subst h
        rw [List.flatten_cons, List.mem_append, ih rest hgl b]
        constructor
        · rintro (hb | ⟨a', ha', part', hg', hb'⟩)
          · exact ⟨a, List.mem_cons_self _ _, part, hga, hb⟩
          · exact ⟨a', List.mem_cons_of_mem _ ha', part', hg', hb'⟩
        · rintro ⟨a', ha', part', hg', hb'⟩
          rcases List.mem_cons.1 ha' with rfl | ha''
          · left
            rw [hga] at hg'
            injection hg' with h
            exact h ▸ hb'
          · right
            exact ⟨a', ha'', part', hg', hb'⟩

theorem peripheralAliasOne_ok_iff (device : Device) (clusters : List Cluster)
    (register : Register) (oname : String) (part : List Variant) :
    peripheralAliasOne device clusters register oname = .ok part ↔
      ∃ op oparent, amGet device.peripherals.peripheral oname = some op ∧
        op.derivedFrom device = .ok oparent ∧
        part = ((traversePeripheralRegisters op oparent).filter
            (fun y => isPathsEqual y.1 y.2 clusters register)).map
          (fun y => { peripheral := op, clusters := y.1, register := y.2 }) := by
  unfold peripheralAliasOne
  cases hop : amGet device.peripherals.peripheral oname with
  | none => simp
  | some op =>
    cases hpar : op.derivedFrom device with
    | error e => simp [hpar, Except.bind]
    | ok oparent =>
      simp only [hpar, Except.bind]
      constructor
      · intro h
        injection h with h
        exact ⟨op, oparent, rfl, hpar, h.symm⟩
      · rintro ⟨op', oparent', hop', hpar', hpart⟩
        injection hop' with hop''
        subst hop''
        rw [hpar] at hpar'
        injection hpar' with hpar''
        subst hpar''
        rw [hpart]

/-- C2 (amended): when the variant collector gathers members from an
alternate peripheral, a `(clusters, register)` pair in the alternate
peripheral is included if and only if it is reachable by traversal of that
peripheral (honoring its `derived_from`) and its address-offset sum —
ancestor cluster offsets plus register offset — equals the original
location's offset sum; peripheral `base_address` is never consulted, so
equivalence across peripherals compares only the relative offset sums, not
resolved absolute addresses. -/
theorem c2_cross_peripheral_equivalence_amended :
    ∀ (device : Device) (peripheral : Peripheral) (clusters : List Cluster)
      (register : Register) (vs : List Variant),
    peripheralAliasVariants device peripheral clusters register = .ok vs →
    ∀ v : Variant, v ∈ vs ↔
      ∃ oname ∈ peripheral.variants, ∃ op oparent,
        amGet device.peripherals.peripheral oname = some op ∧
        op.derivedFrom device = .ok oparent ∧
        ∃ ocl oreg, (ocl, oreg) ∈ traversePeripheralRegisters op oparent ∧
          isPathsEqual ocl oreg clusters register = true ∧
          v = { peripheral := op, clusters := ocl, register := oreg, name := none } := by
  intro device peripheral clusters register vs h v
  unfold peripheralAliasVariants at h
  obtain ⟨parts, hparts, hvs⟩ :
      ∃ parts, peripheral.variants.mapM (peripheralAliasOne device clusters register) = .ok parts
        ∧ vs = parts.flatten := by
    cases hm : peripheral.variants.mapM (peripheralAliasOne device clusters register) with
    | error e => rw [hm] at h; exact absurd h (by simp [Except.bind])
    | ok parts =>
      rw [hm] at h
      simp only [Except.bind] at h
      injection h with h
      exact ⟨parts, rfl, h.symm⟩
  subst hvs
  rw [mapM_except_ok_mem _ _ _ hparts v]
  constructor
  · rintro ⟨oname, honame, part, hone, hv⟩
    obtain ⟨op, oparent, hop, hpar, hpart⟩ := (peripheralAliasOne_ok_iff _ _ _ _ _).1 hone
    subst hpart
    obtain ⟨y, hy, hmap⟩ := List.mem_map.1 hv
    obtain ⟨hymem, hyfil⟩ := List.mem_filter.1 hy
    exact ⟨oname, honame, op, oparent, hop, hpar, y.1, y.2, hymem, hyfil, hmap.symm⟩
  · rintro ⟨oname, honame, op, oparent, hop, hpar, ocl, oreg, hmem, hfil, hv⟩
    refine ⟨oname, honame, _, (peripheralAliasOne_ok_iff _ _ _ _ _).2
      ⟨op, oparent, hop, hpar, rfl⟩, ?_⟩
    rw [hv]
    exact List.mem_map.2 ⟨(ocl, oreg), List.mem_filter.2 ⟨hmem, hfil⟩, rfl⟩

/-- Counterexample for C2: peripherals `P` (base `0x100`) and `Q` (base
`0x200`) each hold register `R` at offset 0, and `P`'s variants list names
`Q`.  The collector includes `Q`'s pair although the two resolved absolute
addresses (`0x100` vs `0x200`) differ — membership is decided by the
relative offset sums alone, so the claim's "additionally compares resolved
absolute addresses" is false on this input. -/
theorem c2_cross_peripheral_equivalence_counterexample :
    (collectVariants c2Device c2PeriphP none [] exReg).map
        (fun vs => vs.map (fun v => (v.peripheral.name, v.register.name))) =
      .ok [("P", "R"), ("Q", "R")]
    ∧ c2PeriphP.base_address + pathOffsetSum [] exReg ≠
        c2PeriphQ.base_address + pathOffsetSum [] exReg :=
  ⟨rfl, by decide⟩

/-- Witness for C2: the amended membership characterization applied to the
concrete two-peripheral device. -/
theorem c2_cross_peripheral_equivalence_witness :
    ({ peripheral := c2PeriphQ, clusters := [], register := exReg, name := none } : Variant) ∈
        [({ peripheral := c2PeriphQ, clusters := [], register := exReg, name := none } : Variant)] ↔
      ∃ oname ∈ c2PeriphP.variants, ∃ op oparent,
        amGet c2Device.peripherals.peripheral oname = some op ∧
        op.derivedFrom c2Device = .ok oparent ∧
        ∃ ocl oreg, (ocl, oreg) ∈ traversePeripheralRegisters op oparent ∧
          isPathsEqual ocl oreg [] exReg = true ∧
          ({ peripheral := c2PeriphQ, clusters := [], register := exReg, name := none } : Variant) =
            { peripheral := op, clusters := ocl, register := oreg, name := none } :=
  c2_cross_peripheral_equivalence_amended c2Device c2PeriphP [] exReg
    [{ peripheral := c2PeriphQ, clusters := [], register := exReg, name := none }] rfl
    { peripheral := c2PeriphQ, clusters := [], register := exReg, name := none }

theorem amGet_cons (k' : String) (v : α) (rest : List (String × α)) (n : String) :
    amGet ((k', v) :: rest) n = if k' == n then some v else amGet rest n := by
  simp only [amGet, List.find?]
  cases h : k' == n <;> simp [h]

theorem amGet_amUpdate (m : List (String × α)) (k : String) (f : α → α) (n : String) :
    amGet (amUpdate m k f) n = if n = k then (amGet m n).map f else amGet m n := by
  induction m with
  | nil => by_cases h : n = k <;> simp [amGet, amUpdate, h]
  | cons p rest ih =>
    obtain ⟨k', v⟩ := p
    by_cases hk : k' = k
    · subst hk
      by_cases hn : k' = n
      · subst hn
        simp [amUpdate, amGet_cons]
      · have hn' : ¬ n = k' := fun h => hn h.symm
        simp [amUpdate, amGet_cons, hn, hn']
    · by_cases hn : k' = n
      · subst hn
        simp [amUpdate, amGet_cons, hk, fun h : k' = k => hk h]
      · simp [amUpdate, amGet_cons, hk, hn, ih]

theorem treePres_refl (t : List (String × RegisterTree)) : TreePres t t :=
  fun _ c h => ⟨c, h, Eq.refl _, fun _ hv => hv⟩

theorem treePres_trans {t₁ t₂ t₃ : List (String × RegisterTree)} (h₁ : TreePres t₁ t₂)
    (h₂ : TreePres t₂ t₃) : TreePres t₁ t₃ := by
  intro N c hc
  obtain ⟨c', hc', halt', hvar'⟩ := h₁ N c hc
  obtain ⟨c'', hc'', halt'', hvar''⟩ := h₂ N c' hc'
  exact ⟨c'', hc'', halt''.trans halt', fun v hv => hvar'' v (hvar' v hv)⟩

theorem amGet_some_mem_keys (m : List (String × α)) (n : String) (v : α)
    (h : amGet m n = some v) : n ∈ m.map Prod.fst := by
  induction m with
  | nil => simp [amGet] at h
  | cons p rest ih =>
    obtain ⟨k', v'⟩ := p
    rw [amGet_cons] at h
    by_cases hk : k' = n
    · simp [hk]
    · rw [if_neg (by simpa using hk)] at h
      simp [ih h]

theorem pushClusterVariant_ok (t : List (String × RegisterTree)) (alt key : String)
    (t' : List (String × RegisterTree)) (h : pushClusterVariant t alt key = .ok t') :
    TreePres t t' ∧ ∃ c', amGet t' alt = some (.cluster c') ∧ key ∈ c'.variants := by
  unfold pushClusterVariant at h
  cases halt : amGet t alt with
  | none => rw [halt] at h; exact absurd h (by simp)
  | some node =>
    cases node with
    | register r => rw [halt] at h; exact absurd h (by simp)
    | cluster c =>
      rw [halt] at h
      injection h with h
      subst h
      constructor
      · intro N c₀ hc₀
        rw [amGet_amUpdate]
        by_cases hN : N = alt
        · subst hN
          rw [halt] at hc₀
          injection hc₀ with hc₀
          have hcc : c = c₀ := by injection hc₀
          subst hcc
          rw [if_pos rfl, halt, Option.map_some']
          exact ⟨_, rfl, rfl, fun v hv => List.mem_append_left _ hv⟩
        · rw [if_neg hN]
          exact ⟨c₀, hc₀, rfl, fun v hv => hv⟩
      · rw [amGet_amUpdate, if_pos rfl, halt, Option.map_some']
        exact ⟨_, rfl, List.mem_append_right _ (List.mem_singleton.2 rfl)⟩

theorem pushRegisterVariant_ok (t : List (String × RegisterTree)) (alt key : String)
    (t' : List (String × RegisterTree)) (h : pushRegisterVariant t alt key = .ok t') :
    TreePres t t' := by
  unfold pushRegisterVariant at h
  cases halt : amGet t alt with
  | none => rw [halt] at h; exact absurd h (by simp)
  | some node =>
    cases node with
    | cluster c => rw [halt] at h; exact absurd h (by simp)
    | register r =>
      rw [halt] at h
      injection h with h
      subst h
      intro N c₀ hc₀
      rw [amGet_amUpdate]
      by_cases hN : N = alt
      · subst hN
        rw [halt] at hc₀
        exact absurd hc₀ (by simp)
      · rw [if_neg hN]
        exact ⟨c₀, hc₀, rfl, fun v hv => hv⟩

theorem subtreeUpdate_pres (t : List (String × RegisterTree)) (key : String) (c : Cluster)
    (sub : List (String × RegisterTree)) (hc : amGet t key = some (.cluster c)) :
    TreePres t (amUpdate t key (fun _ => .cluster { c with register := sub })) := by
  intro N c₀ hc₀
  rw [amGet_amUpdate]
  by_cases hN : N = key
  · subst hN
    rw [hc] at hc₀
    injection hc₀ with hc₀
    have hcc : c = c₀ := by injection hc₀
    subst hcc
    rw [if_pos rfl, hc, Option.map_some']
    exact ⟨_, rfl, rfl, fun v hv => hv⟩
  · rw [if_neg hN]
    exact ⟨c₀, hc₀, rfl, fun v hv => hv⟩

theorem foldPushCluster_ok (key : String) :
    ∀ (vs : List String) (t t' : List (String × RegisterTree)),
    vs.foldlM (fun tr v => pushClusterVariant tr v key) t = .ok t' →
    TreePres t t' ∧ ∀ X, X ∈ vs → ∃ cX, amGet t' X = some (.cluster cX) ∧ key ∈ cX.variants := by
  intro vs
  induction vs with
  | nil =>
    intro t t' h
    simp only [List.foldlM_nil] at h
    have ht : t = t' := by injection h
    subst ht
    exact ⟨treePres_refl t, fun X hX => absurd hX (by simp)⟩
  | cons v vs ih =>
    intro t t' h
    rw [List.foldlM_cons] at h
    cases hp : pushClusterVariant t v key with
    | error e => rw [hp, exceptErrorBind] at h; exact absurd h (by simp)
    | ok t₁ =>
      rw [hp, exceptOkBind] at h
      obtain ⟨hpres₁, c₁, hc₁, hkey₁⟩ := pushClusterVariant_ok t v key t₁ hp
      obtain ⟨hpres₂, hmem₂⟩ := ih t₁ t' h
      refine ⟨treePres_trans hpres₁ hpres₂, fun X hX => ?_⟩
      rcases List.mem_cons.1 hX with rfl | hX'
      · obtain ⟨c', hc', halt', hvar'⟩ := hpres₂ X c₁ hc₁
        exact ⟨c', hc', hvar' key hkey₁⟩
      · exact hmem₂ X hX'

theorem traceTreeGo_ok_pres :
    ∀ (fuel : Nat) (keys : List String) (tree out : List (String × RegisterTree)),
    traceTreeGo fuel keys tree = .ok out → TreePres tree out := by
  intro fuel
  induction fuel with
  | zero => intro keys tree out h; exact absurd h (by simp [traceTreeGo])
  | succ fuel ih =>
    intro keys tree out h
    match keys with
    | [] =>
      simp only [traceTreeGo] at h
      injection h with h
      subst h
      exact treePres_refl _
    | key :: keys =>
      simp only [traceTreeGo] at h
      cases hk : amGet tree key with
      | none => simp only [hk] at h; exact absurd h (by simp)
      | some node =>
        simp only [hk] at h
        cases node with
        | register r =>
          cases halt : r.alternate_register with
          | none =>
            simp only [halt] at h
            exact ih keys tree out h
          | some alt =>
            simp only [halt] at h
            cases hp : pushRegisterVariant tree alt key with
            | error e => simp only [hp, exceptErrorBind] at h; exact absurd h (by simp)
            | ok t₁ =>
              simp only [hp, exceptOkBind] at h
              exact treePres_trans (pushRegisterVariant_ok tree alt key t₁ hp) (ih keys t₁ out h)
        | cluster c =>
          obtain ⟨cdim, cinc, cname, calt, cdesc, coff, creg, cvars⟩ := c
          cases hsub : traceTreeGo fuel (creg.map Prod.fst) creg with
          | error e => simp only [hsub, exceptErrorBind] at h; exact absurd h (by simp)
          | ok sub =>
            simp only [hsub, exceptOkBind] at h
            have hpres₁ : TreePres tree
                (amUpdate tree key (fun _ =>
                  .cluster ⟨cdim, cinc, cname, calt, cdesc, coff, sub, cvars⟩)) := by
              exact subtreeUpdate_pres tree key ⟨cdim, cinc, cname, calt, cdesc, coff, creg, cvars⟩
                sub hk
            cases calt with
            | none =>
              exact treePres_trans hpres₁ (ih keys _ out h)
            | some alt =>
              cases hvs : getClusterVariants
                  (amUpdate tree key (fun _ =>
                    .cluster ⟨cdim, cinc, cname, some alt, cdesc, coff, sub, cvars⟩)) alt with
              | error e => simp only [hvs, exceptErrorBind] at h; exact absurd h (by simp)
              | ok vs =>
                simp only [hvs, exceptOkBind] at h
                cases hfold : vs.foldlM (fun tr v => pushClusterVariant tr v key)
                    (amUpdate tree key (fun _ =>
                      .cluster ⟨cdim, cinc, cname, some alt, cdesc, coff, sub, cvars⟩)) with
                | error e => simp only [hfold, exceptErrorBind] at h; exact absurd h (by simp)
                | ok t₂ =>
                  simp only [hfold, exceptOkBind] at h
                  cases hp : pushClusterVariant t₂ alt key with
                  | error e => simp only [hp, exceptErrorBind] at h; exact absurd h (by simp)
                  | ok t₃ =>
                    simp only [hp, exceptOkBind] at h
                    exact treePres_trans hpres₁ (treePres_trans
                      (foldPushCluster_ok key vs _ t₂ hfold).1
                      (treePres_trans (pushClusterVariant_ok t₂ alt key t₃ hp).1
                        (ih keys t₃ out h)))

theorem someClusterInj {a b : Cluster}
    (h : some (RegisterTree.cluster a) = some (RegisterTree.cluster b)) : a = b := by
  injection h with h
  injection h

theorem getClusterVariants_ok (t : List (String × RegisterTree)) (alt : String)
    (vs : List String) (h : getClusterVariants t alt = .ok vs) :
    ∃ c, amGet t alt = some (.cluster c) ∧ vs = c.variants := by
  unfold getClusterVariants at h
  cases halt : amGet t alt with
  | none => rw [halt] at h; exact absurd h (by simp)
  | some node =>
    cases node with
    | register r => rw [halt] at h; exact absurd h (by simp)
    | cluster c =>
      rw [halt] at h
      injection h with h
      exact ⟨c, rfl, h.symm⟩

theorem traceTreeGo_cons_ok (fuel : Nat) (key : String) (keys : List String)
    (tree out : List (String × RegisterTree))
    (h : traceTreeGo (fuel + 1) (key :: keys) tree = .ok out) :
    ∃ tree', TreePres tree tree' ∧ traceTreeGo fuel keys tree' = .ok out ∧
      ∀ c alt, amGet tree key = some (.cluster c) → c.alternate_cluster = some alt →
        (∃ c', amGet tree' alt = some (.cluster c') ∧ key ∈ c'.variants) ∧
        ∀ X cY, amGet tree alt = some (.cluster cY) → X ∈ cY.variants →
          ∃ cX, amGet tree' X = some (.cluster cX) ∧ key ∈ cX.variants := by
  simp only [traceTreeGo] at h
  cases hk : amGet tree key with
  | none => simp only [hk] at h; exact absurd h (by simp)
  | some node =>
    simp only [hk] at h
    cases node with
    | register r =>
      cases halt : r.alternate_register with
      | none =>
        simp only [halt] at h
        refine ⟨tree, treePres_refl tree, h, fun c alt hc _ => ?_⟩
        exact absurd hc (by simp)
      | some alt' =>
        simp only [halt] at h
        cases hp : pushRegisterVariant tree alt' key with
        | error e => simp only [hp, exceptErrorBind] at h; exact absurd h (by simp)
        | ok t₁ =>
          simp only [hp, exceptOkBind] at h
          refine ⟨t₁, pushRegisterVariant_ok tree alt' key t₁ hp, h, fun c alt hc _ => ?_⟩
          exact absurd hc (by simp)
    | cluster c =>
      obtain ⟨cdim, cinc, cname, calt, cdesc, coff, creg, cvars⟩ := c
      cases hsub : traceTreeGo fuel (creg.map Prod.fst) creg with
      | error e => simp only [hsub, exceptErrorBind] at h; exact absurd h (by simp)
      | ok sub =>
        simp only [hsub, exceptOkBind] at h
        have hpres₁ : TreePres tree
            (amUpdate tree key (fun _ =>
              .cluster ⟨cdim, cinc, cname, calt, cdesc, coff, sub, cvars⟩)) :=
          subtreeUpdate_pres tree key ⟨cdim, cinc, cname, calt, cdesc, coff, creg, cvars⟩ sub hk
        cases calt with
        | none =>
          refine ⟨_, hpres₁, h, fun c alt hc hcalt => ?_⟩
          have hc' := someClusterInj hc
          rw [← hc'] at hcalt
          exact absurd hcalt (by simp)
        | some alt₀ =>
          cases hvs : getClusterVariants
              (amUpdate tree key (fun _ =>
                .cluster ⟨cdim, cinc, cname, some alt₀, cdesc, coff, sub, cvars⟩)) alt₀ with
          | error e => simp only [hvs, exceptErrorBind] at h; exact absurd h (by simp)
          | ok vs =>
            simp only [hvs, exceptOkBind] at h
            cases hfold : vs.foldlM (fun tr v => pushClusterVariant tr v key)
                (amUpdate tree key (fun _ =>
                  .cluster ⟨cdim, cinc, cname, some alt₀, cdesc, coff, sub, cvars⟩)) with
            | error e => simp only [hfold, exceptErrorBind] at h; exact absurd h (by simp)
            | ok t₂ =>
              simp only [hfold, exceptOkBind] at h
              cases hp : pushClusterVariant t₂ alt₀ key with
              | error e => simp only [hp, exceptErrorBind] at h; exact absurd h (by simp)
              | ok t₃ =>
                simp only [hp, exceptOkBind] at h
                obtain ⟨hpres₂, hmem₂⟩ := foldPushCluster_ok key vs _ t₂ hfold
                obtain ⟨hpres₃, hmem₃⟩ := pushClusterVariant_ok t₂ alt₀ key t₃ hp
                refine ⟨t₃, treePres_trans hpres₁ (treePres_trans hpres₂ hpres₃), h,
                  fun c alt hc hcalt => ?_⟩
                have hc' := someClusterInj hc
                rw [← hc'] at hcalt
                have halt_eq : alt = alt₀ := by
                  injection hcalt with hh
                  exact hh.symm
                subst halt_eq
                refine ⟨hmem₃, fun X cY hY hXY => ?_⟩
                obtain ⟨cv, hcv, hvseq⟩ := getClusterVariants_ok _ _ _ hvs
                have hXvs : X ∈ vs := by
                  rw [amGet_amUpdate] at hcv
                  by_cases hak : alt = key
                  · rw [if_pos hak] at hcv
                    rw [hak] at hY
                    have hY' := someClusterInj (hk.symm.trans hY)
                    rw [hak, hk, Option.map_some'] at hcv
                    have hcv' := someClusterInj hcv
                    rw [hvseq, ← hcv']
                    rw [← hY'] at hXY
                    exact hXY
                  · rw [if_neg hak, hY] at hcv
                    have hcv' := someClusterInj hcv
                    rw [hvseq, ← hcv']
                    exact hXY
                obtain ⟨cX, hcX, hkX⟩ := hmem₂ X hXvs
                obtain ⟨cX2, hcX2, haltX2, hvarX2⟩ := hpres₃ X cX hcX
                exact ⟨cX2, hcX2, hvarX2 key hkX⟩

theorem traceTreeGo_mem :
    ∀ (fuel : Nat) (keys : List String) (tree out : List (String × RegisterTree))
      (X Y : String) (cX : Cluster),
    traceTreeGo fuel keys tree = .ok out → X ∈ keys →
    amGet tree X = some (.cluster cX) → cX.alternate_cluster = some Y →
    ∃ cY, amGet out Y = some (.cluster cY) ∧ X ∈ cY.variants := by
  intro fuel
  induction fuel with
  | zero => intro keys tree out X Y cX h hXk hX halt; exact absurd h (by simp [traceTreeGo])
  | succ fuel ih =>
    intro keys tree out X Y cX h hXk hX halt
    match keys with
    | [] => exact absurd hXk (by simp)
    | key :: keys =>
      obtain ⟨tree', hpres, hcont, hcomp⟩ := traceTreeGo_cons_ok fuel key keys tree out h
      by_cases hkX : key = X
      · subst hkX
        obtain ⟨⟨cY', hY', hXY'⟩, -⟩ := hcomp cX Y hX halt
        obtain ⟨cY'', hY'', -, hvar''⟩ := traceTreeGo_ok_pres fuel keys tree' out hcont Y cY' hY'
        exact ⟨cY'', hY'', hvar'' _ hXY'⟩
      · have hXk' : X ∈ keys := by
          rcases List.mem_cons.1 hXk with h' | h'
          · exact absurd h'.symm hkX
          · exact h'
        obtain ⟨cX', hX', haltX', hvarX'⟩ := hpres X cX hX
        exact ih keys tree' out X Y cX' hcont hXk' hX' (haltX'.trans halt)

theorem traceTreeGo_mem_phase2 :
    ∀ (fuel : Nat) (keys : List String) (tree out : List (String × RegisterTree))
      (X Y Z : String) (cZ cY : Cluster),
    traceTreeGo fuel keys tree = .ok out → Z ∈ keys →
    amGet tree Z = some (.cluster cZ) → cZ.alternate_cluster = some Y →
    amGet tree Y = some (.cluster cY) → X ∈ cY.variants →
    ∃ cX, amGet out X = some (.cluster cX) ∧ Z ∈ cX.variants := by
  intro fuel
  induction fuel with
  | zero =>
    intro keys tree out X Y Z cZ cY h hZk hZ haltZ hY hXY
    exact absurd h (by simp [traceTreeGo])
  | succ fuel ih =>
    intro keys tree out X Y Z cZ cY h hZk hZ haltZ hY hXY
    match keys with
    | [] => exact absurd hZk (by simp)
    | key :: keys =>
      obtain ⟨tree', hpres, hcont, hcomp⟩ := traceTreeGo_cons_ok fuel key keys tree out h
      by_cases hkZ : key = Z
      · subst hkZ
        obtain ⟨-, hall⟩ := hcomp cZ Y hZ haltZ
        obtain ⟨cX, hcX, hkX⟩ := hall X cY hY hXY
        obtain ⟨cX', hcX', -, hvarX'⟩ := traceTreeGo_ok_pres fuel keys tree' out hcont X cX hcX
        exact ⟨cX', hcX', hvarX' _ hkX⟩
      · have hZk' : Z ∈ keys := by
          rcases List.mem_cons.1 hZk with h' | h'
          · exact absurd h'.symm hkZ
          · exact h'
        obtain ⟨cZ', hZ', haltZ', hvarZ'⟩ := hpres Z cZ hZ
        obtain ⟨cY', hY', -, hvarY'⟩ := hpres Y cY hY
        exact ih keys tree' out X Y Z cZ' cY' hcont hZk' hZ' (haltZ'.trans haltZ) hY'
          (hvarY' X hXY)

theorem traceTreeGo_mem_trans :
    ∀ (fuel : Nat) (l₁ l₂ : List String) (tree out : List (String × RegisterTree))
      (X Y Z : String) (cX cZ : Cluster),
    traceTreeGo fuel (l₁ ++ X :: l₂) tree = .ok out → Z ∈ l₂ →
    amGet tree X = some (.cluster cX) → cX.alternate_cluster = some Y →
    amGet tree Z = some (.cluster cZ) → cZ.alternate_cluster = some Y →
    ∃ cX', amGet out X = some (.cluster cX') ∧ Z ∈ cX'.variants := by
  intro fuel
  induction fuel with
  | zero =>
    intro l₁ l₂ tree out X Y Z cX cZ h hZmem hX haltX hZ haltZ
    exact absurd h (by simp [traceTreeGo])
  | succ fuel ih =>
    intro l₁ l₂ tree out X Y Z cX cZ h hZmem hX haltX hZ haltZ
    match l₁ with
    | [] =>
      rw [List.nil_append] at h
      obtain ⟨tree', hpres, hcont, hcomp⟩ := traceTreeGo_cons_ok fuel X l₂ tree out h
      obtain ⟨⟨cY', hY', hXY'⟩, -⟩ := hcomp cX Y hX haltX
      obtain ⟨cZ', hZ', haltZ', -⟩ := hpres Z cZ hZ
      exact traceTreeGo_mem_phase2 fuel l₂ tree' out X Y Z cZ' cY' hcont hZmem hZ'
        (haltZ'.trans haltZ) hY' hXY'
    | k :: l₁' =>
      rw [List.cons_append] at h
      obtain ⟨tree', hpres, hcont, hcomp⟩ := traceTreeGo_cons_ok fuel k (l₁' ++ X :: l₂) tree out h
      obtain ⟨cX', hX', haltX', -⟩ := hpres X cX hX
      obtain ⟨cZ', hZ', haltZ', -⟩ := hpres Z cZ hZ
      exact ih l₁' l₂ tree' out X Y Z cX' cZ' hcont hZmem hX' (haltX'.trans haltX) hZ'
        (haltZ'.trans haltZ)

theorem periphPres_refl (t : List (String × Peripheral)) : PeriphPres t t :=
  fun _ p h => ⟨p, h, Eq.refl _, fun _ hv => hv⟩

theorem periphPres_trans {t₁ t₂ t₃ : List (String × Peripheral)} (h₁ : PeriphPres t₁ t₂)
    (h₂ : PeriphPres t₂ t₃) : PeriphPres t₁ t₃ := by
  intro N p hp
  obtain ⟨p', hp', halt', hvar'⟩ := h₁ N p hp
  obtain ⟨p'', hp'', halt'', hvar''⟩ := h₂ N p' hp'
  exact ⟨p'', hp'', halt''.trans halt', fun v hv => hvar'' v (hvar' v hv)⟩

theorem pushPeripheralVariant_ok (t : List (String × Peripheral)) (alt key : String)
    (t' : List (String × Peripheral)) (h : pushPeripheralVariant t alt key = .ok t') :
    PeriphPres t t' ∧ ∃ p', amGet t' alt = some p' ∧ key ∈ p'.variants := by
  unfold pushPeripheralVariant at h
  cases halt : amGet t alt with
  | none => rw [halt] at h; exact absurd h (by simp)
  | some p =>
    rw [halt] at h
    injection h with h
    subst h
    constructor
    · intro N p₀ hp₀
      rw [amGet_amUpdate]
      by_cases hN : N = alt
      · subst hN
        rw [halt] at hp₀
        injection hp₀ with hp₀
        subst hp₀
        rw [if_pos rfl, halt, Option.map_some']
        exact ⟨_, rfl, rfl, fun v hv => List.mem_append_left _ hv⟩
      · rw [if_neg hN]
        exact ⟨p₀, hp₀, rfl, fun v hv => hv⟩
    · rw [amGet_amUpdate, if_pos rfl, halt, Option.map_some']
      exact ⟨_, rfl, List.mem_append_right _ (List.mem_singleton.2 rfl)⟩

theorem foldPushPeriph_ok (key : String) :
    ∀ (vs : List String) (t t' : List (String × Peripheral)),
    vs.foldlM (fun ps v => pushPeripheralVariant ps v key) t = .ok t' →
    PeriphPres t t' ∧ ∀ X, X ∈ vs → ∃ pX, amGet t' X = some pX ∧ key ∈ pX.variants := by
  intro vs
  induction vs with
  | nil =>
    intro t t' h
    simp only [List.foldlM_nil] at h
    have ht : t = t' := by injection h
    subst ht
    exact ⟨periphPres_refl t, fun X hX => absurd hX (by simp)⟩
  | cons v vs ih =>
    intro t t' h
    rw [List.foldlM_cons] at h
    cases hp : pushPeripheralVariant t v key with
    | error e => rw [hp, exceptErrorBind] at h; exact absurd h (by simp)
    | ok t₁ =>
      rw [hp, exceptOkBind] at h
      obtain ⟨hpres₁, p₁, hp₁, hkey₁⟩ := pushPeripheralVariant_ok t v key t₁ hp
      obtain ⟨hpres₂, hmem₂⟩ := ih t₁ t' h
      refine ⟨periphPres_trans hpres₁ hpres₂, fun X hX => ?_⟩
      rcases List.mem_cons.1 hX with rfl | hX'
      · obtain ⟨p', hp', halt', hvar'⟩ := hpres₂ X p₁ hp₁
        exact ⟨p', hp', hvar' key hkey₁⟩
      · exact hmem₂ X hX'

theorem traceVariantsGo_cons_ok (fuel : Nat) (exclude : List String) (key : String)
    (keys : List String) (ps out : List (String × Peripheral))
    (h : traceVariantsGo fuel exclude (key :: keys) ps = .ok out) :
    ∃ ps', PeriphPres ps ps' ∧ traceVariantsGo fuel exclude keys ps' = .ok out ∧
      (exclude.any (fun n => n == key) = false →
        ∀ p alt, amGet ps key = some p → p.alternate_peripheral = some alt →
          (∃ p', amGet ps' alt = some p' ∧ key ∈ p'.variants) ∧
          ∀ X q, amGet ps alt = some q → X ∈ q.variants →
            ∃ pX, amGet ps' X = some pX ∧ key ∈ pX.variants) := by
  simp only [traceVariantsGo] at h
  cases hex : exclude.any (fun n => n == key) with
  | true =>
    rw [if_pos (by rw [hex])] at h
    exact ⟨ps, periphPres_refl ps, h, fun hfalse => absurd hfalse (by decide)⟩
  | false =>
    rw [if_neg (by rw [hex]; exact Bool.false_ne_true)] at h
    cases hk : amGet ps key with
    | none => simp only [hk] at h; exact absurd h (by simp)
    | some p =>
      simp only [hk] at h
      obtain ⟨pder, pdim, pinc, pname, pdesc, palt, pbase, psize, prv, pacc, pint, pregs,
        pvars⟩ := p
      cases pregs with
      | some regs =>
        cases hsub : traceTreeGo fuel (regs.tree.map Prod.fst) regs.tree with
        | error e =>
          simp only [hsub, exceptErrorBind, exceptPure] at h
          exact absurd h (by simp)
        | ok t =>
          simp only [hsub, exceptOkBind, exceptPure] at h
          have hpres₁ : PeriphPres ps (amUpdate ps key (fun _ =>
              ⟨pder, pdim, pinc, pname, pdesc, palt, pbase, psize, prv, pacc, pint,
                some { tree := t }, pvars⟩)) := by
            intro N p₀ hp₀
            rw [amGet_amUpdate]
            by_cases hN : N = key
            · subst hN
              rw [hk] at hp₀
              injection hp₀ with hp₀
              subst hp₀
              rw [if_pos rfl, hk, Option.map_some']
              exact ⟨_, rfl, rfl, fun v hv => hv⟩
            · rw [if_neg hN]
              exact ⟨p₀, hp₀, rfl, fun v hv => hv⟩
          cases palt with
          | none =>
            refine ⟨_, hpres₁, h, fun _ p' alt hp' halt' => ?_⟩
            injection hp' with hp'
            rw [← hp'] at halt'
            exact absurd halt' (by simp)
          | some alt₀ =>
            cases hq : amGet (amUpdate ps key (fun _ =>
                ⟨pder, pdim, pinc, pname, pdesc, some alt₀, pbase, psize, prv, pacc, pint,
                  some { tree := t }, pvars⟩)) alt₀ with
            | none => simp only [hq, exceptErrorBind] at h; exact absurd h (by simp)
            | some q₁ =>
              simp only [hq, exceptOkBind] at h
              cases hfold : q₁.variants.foldlM (fun ps' v => pushPeripheralVariant ps' v key)
                  (amUpdate ps key (fun _ =>
                    ⟨pder, pdim, pinc, pname, pdesc, some alt₀, pbase, psize, prv, pacc, pint,
                      some { tree := t }, pvars⟩)) with
              | error e => simp only [hfold, exceptErrorBind] at h; exact absurd h (by simp)
              | ok ps₂ =>
                simp only [hfold, exceptOkBind] at h
                cases hp2 : pushPeripheralVariant ps₂ alt₀ key with
                | error e => simp only [hp2, exceptErrorBind] at h; exact absurd h (by simp)
                | ok ps₃ =>
                  simp only [hp2, exceptOkBind] at h
                  obtain ⟨hpres₂, hmem₂⟩ := foldPushPeriph_ok key q₁.variants _ ps₂ hfold
                  obtain ⟨hpres₃, hmem₃⟩ := pushPeripheralVariant_ok ps₂ alt₀ key ps₃ hp2
                  refine ⟨ps₃, periphPres_trans hpres₁ (periphPres_trans hpres₂ hpres₃), h,
                    fun _ p' alt hp' halt' => ?_⟩
                  injection hp' with hp'
                  rw [← hp'] at halt'
                  have halt_eq : alt = alt₀ := by
                    injection halt' with hh
                    exact hh.symm
                  subst halt_eq
                  refine ⟨hmem₃, fun X q hq0 hXq => ?_⟩
                  have hXvs : X ∈ q₁.variants := by
                    rw [amGet_amUpdate] at hq
                    by_cases hak : alt = key
                    · rw [if_pos hak] at hq
                      rw [hak] at hq0
                      rw [hq0] at hk
                      injection hk with hk'
                      rw [hak, hq0, Option.map_some'] at hq
                      injection hq with hq'
                      rw [← hq']
                      rw [hk'] at hXq
                      exact hXq
                    · rw [if_neg hak, hq0] at hq
                      injection hq with hq'
                      rw [← hq']
                      exact hXq
                  obtain ⟨pX, hpX, hkX⟩ := hmem₂ X hXvs
                  obtain ⟨pX', hpX', -, hvarX'⟩ := hpres₃ X pX hpX
                  exact ⟨pX', hpX', hvarX' key hkX⟩
      | none =>
        simp only [pure_bind] at h
        have hpres₁ : PeriphPres ps (amUpdate ps key (fun _ =>
            ⟨pder, pdim, pinc, pname, pdesc, palt, pbase, psize, prv, pacc, pint,
              none, pvars⟩)) := by
          intro N p₀ hp₀
          rw [amGet_amUpdate]
          by_cases hN : N = key
          · subst hN
            rw [hk] at hp₀
            injection hp₀ with hp₀
            subst hp₀
            rw [if_pos rfl, hk, Option.map_some']
            exact ⟨_, rfl, rfl, fun v hv => hv⟩
          · rw [if_neg hN]
            exact ⟨p₀, hp₀, rfl, fun v hv => hv⟩
        cases palt with
        | none =>
          refine ⟨_, hpres₁, h, fun _ p' alt hp' halt' => ?_⟩
          injection hp' with hp'
          rw [← hp'] at halt'
          exact absurd halt' (by simp)
        | some alt₀ =>
          cases hq : amGet (amUpdate ps key (fun _ =>
              ⟨pder, pdim, pinc, pname, pdesc, some alt₀, pbase, psize, prv, pacc, pint,
                none, pvars⟩)) alt₀ with
          | none => simp only [hq, exceptErrorBind] at h; exact absurd h (by simp)
          | some q₁ =>
            simp only [hq, exceptOkBind] at h
            cases hfold : q₁.variants.foldlM (fun ps' v => pushPeripheralVariant ps' v key)
                (amUpdate ps key (fun _ =>
                  ⟨pder, pdim, pinc, pname, pdesc, some alt₀, pbase, psize, prv, pacc, pint,
                    none, pvars⟩)) with
            | error e => simp only [hfold, exceptErrorBind] at h; exact absurd h (by simp)
            | ok ps₂ =>
              simp only [hfold, exceptOkBind] at h
              cases hp2 : pushPeripheralVariant ps₂ alt₀ key with
              | error e => simp only [hp2, exceptErrorBind] at h; exact absurd h (by simp)
              | ok ps₃ =>
                simp only [hp2, exceptOkBind] at h
                obtain ⟨hpres₂, hmem₂⟩ := foldPushPeriph_ok key q₁.variants _ ps₂ hfold
                obtain ⟨hpres₃, hmem₃⟩ := pushPeripheralVariant_ok ps₂ alt₀ key ps₃ hp2
                refine ⟨ps₃, periphPres_trans hpres₁ (periphPres_trans hpres₂ hpres₃), h,
                  fun _ p' alt hp' halt' => ?_⟩
                injection hp' with hp'
                rw [← hp'] at halt'
                have halt_eq : alt = alt₀ := by
                  injection halt' with hh
                  exact hh.symm
                subst halt_eq
                refine ⟨hmem₃, fun X q hq0 hXq => ?_⟩
                have hXvs : X ∈ q₁.variants := by
                  rw [amGet_amUpdate] at hq
                  by_cases hak : alt = key
                  · rw [if_pos hak] at hq
                    rw [hak] at hq0
                    rw [hq0] at hk
                    injection hk with hk'
                    rw [hak, hq0, Option.map_some'] at hq
                    injection hq with hq'
                    rw [← hq']
                    rw [hk'] at hXq
                    exact hXq
                  · rw [if_neg hak, hq0] at hq
                    injection hq with hq'
                    rw [← hq']
                    exact hXq
                obtain ⟨pX, hpX, hkX⟩ := hmem₂ X hXvs
                obtain ⟨pX', hpX', -, hvarX'⟩ := hpres₃ X pX hpX
                exact ⟨pX', hpX', hvarX' key hkX⟩

theorem traceVariantsGo_ok_pres :
    ∀ (keys : List String) (fuel : Nat) (exclude : List String)
      (ps out : List (String × Peripheral)),
    traceVariantsGo fuel exclude keys ps = .ok out → PeriphPres ps out := by
  intro keys
  induction keys with
  | nil =>
    intro fuel exclude ps out h
    simp only [traceVariantsGo] at h
    injection h with h
    subst h
    exact periphPres_refl _
  | cons key keys ih =>
    intro fuel exclude ps out h
    obtain ⟨ps', hpres, hcont, -⟩ := traceVariantsGo_cons_ok fuel exclude key keys ps out h
    exact periphPres_trans hpres (ih fuel exclude ps' out hcont)

theorem traceVariantsGo_mem :
    ∀ (keys : List String) (fuel : Nat) (exclude : List String)
      (ps out : List (String × Peripheral)) (X Y : String) (pX : Peripheral),
    traceVariantsGo fuel exclude keys ps = .ok out → X ∈ keys →
    exclude.any (fun n => n == X) = false →
    amGet ps X = some pX → pX.alternate_peripheral = some Y →
    ∃ pY, amGet out Y = some pY ∧ X ∈ pY.variants := by
  intro keys
  induction keys with
  | nil => intro fuel exclude ps out X Y pX h hXk; exact absurd hXk (by simp)
  | cons key keys ih =>
    intro fuel exclude ps out X Y pX h hXk hexcl hX halt
    obtain ⟨ps', hpres, hcont, hcomp⟩ := traceVariantsGo_cons_ok fuel exclude key keys ps out h
    by_cases hkX : key = X
    · subst hkX
      obtain ⟨⟨pY', hY', hXY'⟩, -⟩ := hcomp hexcl pX Y hX halt
      obtain ⟨pY'', hY'', -, hvar''⟩ := traceVariantsGo_ok_pres keys fuel exclude ps' out
        hcont Y pY' hY'
      exact ⟨pY'', hY'', hvar'' _ hXY'⟩
    · have hXk' : X ∈ keys := by
        rcases List.mem_cons.1 hXk with h' | h'
        · exact absurd h'.symm hkX
        · exact h'
      obtain ⟨pX', hX', haltX', -⟩ := hpres X pX hX
      exact ih fuel exclude ps' out X Y pX' hcont hXk' hexcl hX' (haltX'.trans halt)

theorem traceVariantsGo_mem_phase2 :
    ∀ (keys : List String) (fuel : Nat) (exclude : List String)
      (ps out : List (String × Peripheral)) (X Y Z : String) (pZ pY : Peripheral),
    traceVariantsGo fuel exclude keys ps = .ok out → Z ∈ keys →
    exclude.any (fun n => n == Z) = false →
    amGet ps Z = some pZ → pZ.alternate_peripheral = some Y →
    amGet ps Y = some pY → X ∈ pY.variants →
    ∃ pX, amGet out X = some pX ∧ Z ∈ pX.variants := by
  intro keys
  induction keys with
  | nil => intro fuel exclude ps out X Y Z pZ pY h hZk; exact absurd hZk (by simp)
  | cons key keys ih =>
    intro fuel exclude ps out X Y Z pZ pY h hZk hexcl hZ haltZ hY hXY
    obtain ⟨ps', hpres, hcont, hcomp⟩ := traceVariantsGo_cons_ok fuel exclude key keys ps out h
    by_cases hkZ : key = Z
    · subst hkZ
      obtain ⟨-, hall⟩ := hcomp hexcl pZ Y hZ haltZ
      obtain ⟨pX, hpX, hkX⟩ := hall X pY hY hXY
      obtain ⟨pX', hpX', -, hvarX'⟩ := traceVariantsGo_ok_pres keys fuel exclude ps' out
        hcont X pX hpX
      exact ⟨pX', hpX', hvarX' _ hkX⟩
    · have hZk' : Z ∈ keys := by
        rcases List.mem_cons.1 hZk with h' | h'
        · exact absurd h'.symm hkZ
        · exact h'
      obtain ⟨pZ', hZ', haltZ', -⟩ := hpres Z pZ hZ
      obtain ⟨pY', hY', -, hvarY'⟩ := hpres Y pY hY
      exact ih fuel exclude ps' out X Y Z pZ' pY' hcont hZk' hexcl hZ' (haltZ'.trans haltZ) hY'
        (hvarY' X hXY)

theorem traceVariantsGo_mem_trans :
    ∀ (l₁ l₂ : List String) (fuel : Nat) (exclude : List String)
      (ps out : List (String × Peripheral)) (X Y Z : String) (pX pZ : Peripheral),
    traceVariantsGo fuel exclude (l₁ ++ X :: l₂) ps = .ok out → Z ∈ l₂ →
    exclude.any (fun n => n == X) = false →
    exclude.any (fun n => n == Z) = false →
    amGet ps X = some pX → pX.alternate_peripheral = some Y →
    amGet ps Z = some pZ → pZ.alternate_peripheral = some Y →
    ∃ pX', amGet out X = some pX' ∧ Z ∈ pX'.variants := by
  intro l₁
  induction l₁ with
  | nil =>
    intro l₂ fuel exclude ps out X Y Z pX pZ h hZmem hexclX hexclZ hX haltX hZ haltZ
    rw [List.nil_append] at h
    obtain ⟨ps', hpres, hcont, hcomp⟩ := traceVariantsGo_cons_ok fuel exclude X l₂ ps out h
    obtain ⟨⟨pY', hY', hXY'⟩, -⟩ := hcomp hexclX pX Y hX haltX
    obtain ⟨pZ', hZ', haltZ', -⟩ := hpres Z pZ hZ
    exact traceVariantsGo_mem_phase2 l₂ fuel exclude ps' out X Y Z pZ' pY' hcont hZmem hexclZ
      hZ' (haltZ'.trans haltZ) hY' hXY'
  | cons k l₁' ih =>
    intro l₂ fuel exclude ps out X Y Z pX pZ h hZmem hexclX hexclZ hX haltX hZ haltZ
    rw [List.cons_append] at h
    obtain ⟨ps', hpres, hcont, -⟩ :=
      traceVariantsGo_cons_ok fuel exclude k (l₁' ++ X :: l₂) ps out h
    obtain ⟨pX', hX', haltX', -⟩ := hpres X pX hX
    obtain ⟨pZ', hZ', haltZ', -⟩ := hpres Z pZ hZ
    exact ih l₂ fuel exclude ps' out X Y Z pX' pZ' hcont hZmem hexclX hexclZ hX'
      (haltX'.trans haltX) hZ' (haltZ'.trans haltZ)

/-- C1: corrected alias-tracing behavior.  Tracing is one-directional, not
symmetric: (i) a cluster X declaring alternate_cluster = Y gets its OWN
name pushed into Y's variants (never Y's name into X's); (ii) a later
cluster Z also aliasing Y is pushed into X's variants (one-directional
transitive link); (iii) and (iv) are the identical statements at
peripheral granularity for alternate_peripheral, gated on the peripheral
not being excluded. -/
theorem c1_alias_symmetry_amended :
    (∀ (fuel : Nat) (keys : List String) (tree out : List (String × RegisterTree))
       (X Y : String) (cX : Cluster),
       traceTreeGo fuel keys tree = Except.ok out → X ∈ keys →
       amGet tree X = some (RegisterTree.cluster cX) → cX.alternate_cluster = some Y →
       ∃ cY, amGet out Y = some (RegisterTree.cluster cY) ∧ X ∈ cY.variants)
  ∧ (∀ (fuel : Nat) (l₁ l₂ : List String) (tree out : List (String × RegisterTree))
       (X Y Z : String) (cX cZ : Cluster),
       traceTreeGo fuel (l₁ ++ X :: l₂) tree = Except.ok out → Z ∈ l₂ →
       amGet tree X = some (RegisterTree.cluster cX) → cX.alternate_cluster = some Y →
       amGet tree Z = some (RegisterTree.cluster cZ) → cZ.alternate_cluster = some Y →
       ∃ cX', amGet out X = some (RegisterTree.cluster cX') ∧ Z ∈ cX'.variants)
  ∧ (∀ (keys : List String) (fuel : Nat) (exclude : List String)
       (ps out : List (String × Peripheral)) (X Y : String) (pX : Peripheral),
       traceVariantsGo fuel exclude keys ps = Except.ok out → X ∈ keys →
       exclude.any (fun n => n == X) = false →
       amGet ps X = some pX → pX.alternate_peripheral = some Y →
       ∃ pY, amGet out Y = some pY ∧ X ∈ pY.variants)
  ∧ (∀ (l₁ l₂ : List String) (fuel : Nat) (exclude : List String)
       (ps out : List (String × Peripheral)) (X Y Z : String) (pX pZ : Peripheral),
       traceVariantsGo fuel exclude (l₁ ++ X :: l₂) ps = Except.ok out → Z ∈ l₂ →
       exclude.any (fun n => n == X) = false → exclude.any (fun n => n == Z) = false →
       amGet ps X = some pX → pX.alternate_peripheral = some Y →
       amGet ps Z = some pZ → pZ.alternate_peripheral = some Y →
       ∃ pX', amGet out X = some pX' ∧ Z ∈ pX'.variants) :=
  ⟨traceTreeGo_mem, traceTreeGo_mem_trans, traceVariantsGo_mem, traceVariantsGo_mem_trans⟩

/-- C1 counterexample to the claimed symmetry: in `c1Tree` the cluster `X`
declares `alternate_cluster = Y`, yet after a successful trace `X`'s
variants list is empty — `Y` never appears in it — while `Y`'s variants
list is exactly `[X]`. -/
theorem c1_alias_symmetry_counterexample :
    amGet c1Tree "X" =
        some (RegisterTree.cluster { name := "X", alternate_cluster := some "Y" })
  ∧ (traceTreeGo 10 ["X", "Y"] c1Tree).map
        (fun t => (clusterVariantsAt t "X", clusterVariantsAt t "Y")) =
      Except.ok ([], ["X"]) :=
  ⟨rfl, rfl⟩

/-- Witness for C1: the four amended components applied to the concrete
three-cluster tree `c1TreeZ` and the three-peripheral map `c1Periphs`. -/
theorem c1_alias_symmetry_witness :
    (traceTreeGo 10 ["X", "Y", "Z"] c1TreeZ = Except.ok c1OutZ
      ∧ (∃ cY, amGet c1OutZ "Y" = some (RegisterTree.cluster cY) ∧ "X" ∈ cY.variants)
      ∧ (∃ cX, amGet c1OutZ "X" = some (RegisterTree.cluster cX) ∧ "Z" ∈ cX.variants))
  ∧ (traceVariantsGo 10 [] ["PA", "PB", "PZ"] c1Periphs = Except.ok c1POut
      ∧ (∃ pY, amGet c1POut "PB" = some pY ∧ "PA" ∈ pY.variants)
      ∧ (∃ pX, amGet c1POut "PA" = some pX ∧ "PZ" ∈ pX.variants)) :=
  ⟨⟨rfl,
    c1_alias_symmetry_amended.1 10 ["X", "Y", "Z"] c1TreeZ c1OutZ "X" "Y"
      { name := "X", alternate_cluster := some "Y" } rfl (by simp) rfl rfl,
    c1_alias_symmetry_amended.2.1 10 [] ["Y", "Z"] c1TreeZ c1OutZ "X" "Y" "Z"
      { name := "X", alternate_cluster := some "Y" }
      { name := "Z", alternate_cluster := some "Y" } rfl (by simp) rfl rfl rfl rfl⟩,
   ⟨rfl,
    c1_alias_symmetry_amended.2.2.1 ["PA", "PB", "PZ"] 10 [] c1Periphs c1POut "PA" "PB"
      { name := "PA", alternate_peripheral := some "PB" } rfl (by simp) rfl rfl rfl,
    c1_alias_symmetry_amended.2.2.2 [] ["PB", "PZ"] 10 [] c1Periphs c1POut "PA" "PB" "PZ"
      { name := "PA", alternate_peripheral := some "PB" }
      { name := "PZ", alternate_peripheral := some "PB" } rfl (by simp) rfl rfl rfl rfl rfl rfl⟩⟩

end DroneSvd
